import Mathlib

/-!
Verification development for the motion-signal feature-extraction core of the
`mhealthx` repository (gait-event detection in `mhealthx/extractors/pyGait.py`,
signal helpers in `mhealthx/signals.py`, and symbolic dynamic filtering in
`mhealthx/extractors/symbolic_dynamic_filtering.py`).

The Python sources are embedded shallowly:

* signal samples are rationals (`ℚ`); the Python floating-point arithmetic of
  the source is modelled exactly (sums, differences, divisions), which is
  faithful for every concrete evaluation appearing below;
* Python / numpy indexing and slicing, including negative wrap-around, is
  modelled by `pyIdx` / `pySlice`; an `IndexError` (or any other raised
  exception) is modelled by `Option.none`;
* numpy reductions (`np.mean`, `np.max`, `np.argmax`, `np.sort`, `np.round`)
  are modelled by the corresponding executable functions below;
* the two scipy calls whose values are transcendental (the Butterworth filter
  `butter_lowpass_filter` and the FFT-based `compute_interpeak`) are abstracted
  as an explicit environment `SigEnv`: every theorem about `heel_strikes` and
  its callers quantifies over that environment.  The real-FFT interpeak
  estimator is additionally embedded exactly for length-4 signals, where the
  fourth roots of unity make every DFT coefficient rational.
-/

namespace Mhealthx

/-- Model of `np.mean(l)` for a nonempty array: sum divided by length.
(For the empty array numpy returns NaN; this total version returns the Lean
junk value `0/0 = 0` and is only ever used where the NaN value itself cannot
be observed; `npMeanOpt` below models the NaN case explicitly.) -/
def npMean (l : List ℚ) : ℚ := l.sum / l.length

/-- Model of `np.mean(l)` where the NaN produced on an empty input matters:
`none` models the NaN. -/
def npMeanOpt (l : List ℚ) : Option ℚ :=
  if l = [] then none else some (l.sum / l.length)

/-- Population variance `np.mean((x - mean)**2)`; `np.std` of the source is its
square root.  The source only ever reports the standard deviation, never
branches on it, so the (rational) variance is recorded instead of the
(irrational) standard deviation; `none` models the NaN on empty input. -/
def npVarOpt (l : List ℚ) : Option ℚ :=
  if l = [] then none
  else some (((l.map (fun x => (x - npMean l) ^ 2)).sum) / l.length)

/-- Model of the in-place demeaning statement `data -= np.mean(data)`:
the value held by the buffer afterwards. -/
def demean (l : List ℚ) : List ℚ := l.map (fun x => x - npMean l)

/-- Wrap-around of a Python index: a negative index counts from the end. -/
def pyWrap (n : ℕ) (i : ℤ) : ℤ := if i < 0 then i + n else i

/-- Python / numpy integer indexing `l[i]` with negative wrap-around;
`none` models an `IndexError`. -/
def pyIdx (l : List ℚ) (i : ℤ) : Option ℚ :=
  if 0 ≤ pyWrap l.length i ∧ pyWrap l.length i < (l.length : ℤ) then
    some (l.getD (pyWrap l.length i).toNat 0)
  else none

/-- Clamping of one slice endpoint, Python semantics: a negative endpoint
counts from the end (clamped below at 0), a nonnegative one is clamped above
at the length. -/
def pySliceIdx (n : ℕ) (i : ℤ) : ℕ :=
  if i < 0 then (i + n).toNat else min i.toNat n

/-- Python slice `l[a:b]` (step 1) with negative wrap-around and clamping;
an empty result is an empty list, never an error. -/
def pySlice (l : List ℚ) (a b : ℤ) : List ℚ :=
  let a2 := pySliceIdx l.length a
  let b2 := pySliceIdx l.length b
  (l.drop a2).take (b2 - a2)

/-- Model of `np.max(l)`: `none` models the ValueError raised on an empty
array. -/
def npMax (l : List ℚ) : Option ℚ :=
  match l with
  | [] => none
  | x :: xs => some (xs.foldl max x)

/-- Accumulator loop of `np.argmax`: strict improvement only, so the first
occurrence of the maximum wins, as in numpy. -/
def argmaxGo (bi : ℕ) (bv : ℚ) (i : ℕ) : List ℚ → ℕ
  | [] => bi
  | v :: vs => if bv < v then argmaxGo i v (i + 1) vs else argmaxGo bi bv (i + 1) vs

/-- Model of `np.argmax(l)`: index of the first maximum; `none` models the
ValueError raised on an empty array. -/
def npArgmax : List ℚ → Option ℕ
  | [] => none
  | x :: xs => some (argmaxGo 0 x 1 xs)

/-- Model of `np.round` on a rational: round half to even (numpy's rule). -/
def pyRound (q : ℚ) : ℤ :=
  let f := ⌊q⌋
  if q - f < 1 / 2 then f
  else if 1 / 2 < q - f then f + 1
  else if f % 2 = 0 then f else f + 1

/-- Truncation toward zero, the conversion Python's `int(...)` (and 2015-era
numpy float indexing) applies to a float. -/
def pyTrunc (q : ℚ) : ℤ := if q < 0 then -⌊-q⌋ else ⌊q⌋

/-- Model of `np.linspace a b n`: `n` evenly spaced points from `a` to `b`
inclusive. -/
def npLinspace (a b : ℚ) (n : ℕ) : List ℚ :=
  if n = 1 then [a]
  else (List.range n).map (fun i => a + i * (b - a) / ((n : ℚ) - 1))

/-! ### Symbolic dynamic filtering
(`mhealthx/extractors/symbolic_dynamic_filtering.py`) -/

/-- Embedding of `max_entropy_partition(data, number_of_symbols)`: sort the
data (`np.sort`, modelled by insertion sort — equal as a value list), then read
`K - 1` boundaries at indices `floor(ipart * len(data) / K) - 1` for
`ipart = 1 .. K-1`, with Python wrap-around for a negative index (the source
indexes with a float that old numpy truncates; the quantity is an exact
integer-valued float there, modelled exactly).  `none` models the IndexError
on an empty array. -/
def maxEntropyPartition (data : List ℚ) (K : ℕ) : Option (List ℚ) :=
  let sorted := List.insertionSort (· ≤ ·) data
  (List.range (K - 1)).mapM (fun (ip : ℕ) =>
    pyIdx sorted (⌊(((ip : ℚ) + 1) * (data.length : ℚ)) / (K : ℚ)⌋ - 1))

/-- Embedding of `generate_symbol_sequence(data, partition)`: each sample maps
to 1 + the index of the first boundary strictly greater than it; the `np.Inf`
sentinel appended by the source is modelled by `List.findIdx` returning the
list length when no boundary qualifies, so the symbol is `K` in that case. -/
def generateSymbolSequence (data part : List ℚ) : List ℕ :=
  data.map (fun x => part.findIdx (fun b => decide (x < b)) + 1)

/-- Consecutive symbol pairs `(symbols[i-1], symbols[i])`, the iteration space
of the counting loop of `analyze_symbol_sequence`. -/
def sdfPairs (symbols : List ℕ) : List (ℕ × ℕ) := symbols.zip symbols.tail

/-- One iteration of the counting loop of `analyze_symbol_sequence`:
`pvec[s_prev - 1] += 1`, and when the morph matrix is requested
`morph[s_next - 1, s_prev - 1] += 1`. -/
def sdfStep (flag : Bool) (st : (ℕ → ℕ → ℚ) × (ℕ → ℚ)) (p : ℕ × ℕ) :
    (ℕ → ℕ → ℚ) × (ℕ → ℚ) :=
  ((if flag then
      fun r c => if r = p.2 - 1 ∧ c = p.1 - 1 then st.1 r c + 1 else st.1 r c
    else st.1),
   fun c => if c = p.1 - 1 then st.2 c + 1 else st.2 c)

/-- Accumulated (pre-normalization) transition counts of
`analyze_symbol_sequence`: the fold of `sdfStep` over all consecutive pairs,
starting from the all-zero `morph` matrix and `pvec` vector. -/
def analyzeRaw (symbols : List ℕ) (flag : Bool) : (ℕ → ℕ → ℚ) × (ℕ → ℚ) :=
  (sdfPairs symbols).foldl (sdfStep flag) ((fun _ _ => 0), fun _ => 0)

/-- Embedding of `analyze_symbol_sequence(symbols, number_of_states, flag)`:
the counting loop followed by the normalizations — `pvec` divided by its sum,
and (when the matrix is requested) each row of `morph` divided by its row sum,
a zero-sum row being replaced by the normalized `pvec`.  Arrays of length
`nStates` are modelled as functions read at indices `< nStates`. -/
def analyzeSymbolSequence (symbols : List ℕ) (nStates : ℕ) (flag : Bool) :
    (ℕ → ℕ → ℚ) × (ℕ → ℚ) :=
  let raw := analyzeRaw symbols flag
  let s := ∑ i ∈ Finset.range nStates, raw.2 i
  let pvec := fun c => raw.2 c / s
  let morph := fun r c =>
    if flag ∧ r < nStates then
      if (∑ c2 ∈ Finset.range nStates, raw.1 r c2) = 0 then pvec c
      else raw.1 r c / (∑ c2 ∈ Finset.range nStates, raw.1 r c2)
    else raw.1 r c
  (morph, pvec)

/-- Partition and symbol generation chained as in `sdf_features`. -/
def sdfSymbols (data : List ℚ) (K : ℕ) : Option (List ℕ) :=
  (maxEntropyPartition data K).map (generateSymbolSequence data)

/-- Embedding of `sdf_features(data, number_of_symbols, pi_matrix_flag)`:
the feature vector is the row-major flattening of the transposed morph matrix
(length `K * K`) when the flag is set, and the normalized `pvec` (length `K`)
otherwise. -/
def sdfFeatures (data : List ℚ) (K : ℕ) (piMatrixFlag : Bool) : Option (List ℚ) := do
  let symbols ← sdfSymbols data K
  let mp := analyzeSymbolSequence symbols K piMatrixFlag
  if piMatrixFlag then
    pure ((List.range K).flatMap (fun i => (List.range K).map (fun j => mp.1 j i)))
  else
    pure ((List.range K).map mp.2)

/-! ### Signal helpers (`mhealthx/signals.py`) -/

/-- Embedding of `crossings_nonzero_pos2neg(data)`: indices `i` with
`data[i] > 0` and `data[i+1] <= 0`, in increasing order. -/
def crossingsNonzeroPos2neg (l : List ℚ) : List ℕ :=
  (List.range (l.length - 1)).filter
    (fun i => decide (0 < l.getD i 0) && decide (l.getD (i + 1) 0 ≤ 0))

/-- Abstraction of the two scipy-backed numeric routines used by
`heel_strikes` and `walk_direction_preheel`, whose exact values are
transcendental functions of the input: `lowpass` stands for
`butter_lowpass_filter(·, sample_rate, cutoff, order)` (the scalar parameters
are baked into the abstract function) and `interpeak` for
`compute_interpeak(·, sample_rate)`.  Theorems about the gait-event code
quantify over this environment. -/
structure SigEnv where
  lowpass : List ℚ → List ℚ
  interpeak : List ℚ → ℕ

/-- One segment `[a, b)` of the coarse peak search of `heel_strikes`:
the argmax of the filtered signal over the segment, kept only when it exceeds
the threshold.  `none` models the ValueError of `np.argmax` on an empty
segment (unreachable for real transition indices). -/
def segPeak (filtered : List ℚ) (fthr : ℚ) (a b : ℕ) : Option (List ℕ) :=
  match npArgmax (pySlice filtered a b) with
  | none => none
  | some im => if fthr < filtered.getD (a + im) 0 then some [a + im] else some []

/-- Loop `for i in range(1, np.size(transitions))` of `heel_strikes`:
one `segPeak` per consecutive pair of transition indices. -/
def coarseLoop (filtered : List ℚ) (fthr : ℚ) : List ℕ → Option (List ℕ)
  | a :: b :: rest => do
    let p ← segPeak filtered fthr a b
    let r ← coarseLoop filtered fthr (b :: rest)
    pure (p ++ r)
  | _ => some []

/-- Coarse (smoothed-signal) strike candidates of `heel_strikes`:
threshold = `abs(threshold * np.max(filtered))`, then the segment loop over
the positive-to-negative transitions. -/
def coarsePeaks (filtered : List ℚ) (threshold : ℚ) : Option (List ℕ) := do
  let m ← npMax filtered
  coarseLoop filtered |threshold * m| (crossingsNonzeroPos2neg filtered)

/-- Refinement step of `heel_strikes`:
`np.argmax(data[ismooth - decel : ismooth + decel]) + ismooth - decel` with
Python slice semantics on the demeaned buffer; `none` models the ValueError
of `np.argmax` on an empty slice. -/
def refineStrike (buf : List ℚ) (d : ℕ) (s : ℕ) : Option ℤ :=
  (npArgmax (pySlice buf ((s : ℤ) - d) ((s : ℤ) + d))).map
    (fun p => (p : ℤ) + s - d)

/-- Embedding of `heel_strikes(data, sample_rate, threshold, order, cutoff)`.
The first component is the returned pair `(strikes, strike_indices)` (`none`
models any raised exception, in particular the IndexError of
`strikes[0]` on an empty index list); the second component is the value the
caller-supplied buffer holds after the call — the source demeans `data` in
place (`data -= np.mean(data)`) before filtering, and all later reads
(`compute_interpeak`, the refinement slices) see the demeaned buffer. -/
def heelStrikesRun (env : SigEnv) (data : List ℚ) (sampleRate threshold : ℚ) :
    Option (List ℚ × List ℤ) × List ℚ :=
  let buf := demean data
  let result : Option (List ℚ × List ℤ) := do
    let filtered := env.lowpass buf
    let smooth ← coarsePeaks filtered threshold
    let d := env.interpeak buf / 2
    let idxs ← smooth.mapM (refineStrike buf d)
    let first ← idxs.head?
    pure (idxs.map (fun i => ((i - first : ℤ) : ℚ) / sampleRate), idxs)
  (result, buf)

/-- The value returned by `heel_strikes` (exceptions modelled by `none`). -/
def heelStrikes (env : SigEnv) (data : List ℚ) (sampleRate threshold : ℚ) :
    Option (List ℚ × List ℤ) :=
  (heelStrikesRun env data sampleRate threshold).1

/-- The summed absolute acceleration `np.abs(ax) + np.abs(ay) + np.abs(az)`
feeding `heel_strikes` inside `walk_direction_preheel`. -/
def absSum3 (ax ay az : List ℚ) : List ℚ :=
  List.zipWith (fun ab c => ab + |c|) (List.zipWith (fun a b => |a| + |b|) ax ay) az

/-- Python `range(a, b)` over integers. -/
def intRange (a b : ℤ) : List ℤ := (List.range (b - a).toNat).map (fun i => a + i)

/-- Componentwise mean of a nonempty list of 3-vectors
(`np.mean(vectors, axis=0)`). -/
def meanV3 (vs : List (ℚ × ℚ × ℚ)) : ℚ × ℚ × ℚ :=
  ((vs.map (fun v => v.1)).sum / vs.length,
   (vs.map (fun v => v.2.1)).sum / vs.length,
   (vs.map (fun v => v.2.2)).sum / vs.length)

/-- One per-event deceleration vector of `walk_direction_preheel`: the mean of
the raw 3-axis samples over `range(ipeak - decel, ipeak)` with Python list
indexing (negative indices wrap; out of range models the IndexError as
`none`).  An empty range gives numpy's NaN mean, modelled as `none`. -/
def decelVector (ax ay az : List ℚ) (decel p : ℤ) : Option (ℚ × ℚ × ℚ) :=
  let idxs := intRange (p - decel) p
  if idxs = [] then none
  else
    (idxs.mapM (fun i =>
      (pyIdx ax i).bind (fun x =>
        (pyIdx ay i).bind (fun y =>
          (pyIdx az i).map (fun z => (x, y, z)))))).map meanV3

/-- Embedding of `walk_direction_preheel` up to (and excluding) the final
normalization: the negated average deceleration vector.  The source then
divides by the Euclidean norm; that (irrational) normalization is stated in
the theorems over `ℝ`.  `none` models a raised exception or a NaN result.
Note the buffer aliasing: `heel_strikes` demeans the shared `data` array in
place, so the interpeak estimate and the second refinement pass read the
demeaned buffer. -/
def walkDirectionPreheelRaw (env : SigEnv) (ax ay az : List ℚ)
    (sampleRate strideFraction threshold : ℚ) : Option (ℚ × ℚ × ℚ) := do
  let data := absSum3 ax ay az
  let pr ← heelStrikes env data sampleRate threshold
  let buf := demean data
  let decel := pyRound (strideFraction * (env.interpeak buf : ℚ))
  let ipeaks ← pr.2.mapM (fun s =>
    (npArgmax (pySlice buf (s - decel) (s + decel))).map (fun p => (p : ℤ) + s - decel))
  let vectors ← ipeaks.mapM (decelVector ax ay az decel)
  if vectors = [] then none
  else
    let m := meanV3 vectors
    pure (-m.1, -m.2.1, -m.2.2)

/-- Sum of squares of a 3-vector (`direction.dot(direction)` in the source). -/
def sumSq3 (w : ℚ × ℚ × ℚ) : ℚ := w.1 ^ 2 + w.2.1 ^ 2 + w.2.2 ^ 2

/-! ### Autocorrelation and gait metrics
(`mhealthx/signals.py::autocorrelate`, `mhealthx/extractors/pyGait.py::gait`) -/

/-- Signal value at an integer position, zero outside the support (used only
to express the full cross-correlation sum). -/
def getZ (l : List ℚ) (i : ℤ) : ℚ :=
  if h : 0 ≤ i ∧ i < (l.length : ℤ) then l.get ⟨i.toNat, by omega⟩ else 0

/-- Embedding of `scipy.signal.correlate(x, x, 'full')` for 1-D input:
output index `k` (of `2N - 1`) holds `sum_n x[n] * x[n + N - 1 - k]`. -/
def correlateFull (x : List ℚ) : List ℚ :=
  (List.range (2 * x.length - 1)).map (fun k =>
    ∑ n ∈ Finset.range x.length,
      getZ x n * getZ x ((n : ℤ) + (x.length : ℤ) - 1 - (k : ℤ)))

/-- Embedding of `autocorrelate(data, unbias, normalize)` (no plotting).
`unbias`/`normalize` take 0 for Python `None`.  The non-negative-lag half is
`coefficients[size/2:]` with Python-2 integer division.  A division whose
denominator is zero would poison the numpy arrays with inf/NaN; those inputs
are modelled as `none` (no theorem below depends on them), as is the IOError
raised for an out-of-range mode. -/
def autocorrelate (data : List ℚ) (unbias normalize : ℕ) : Option (List ℚ × ℕ) := do
  let full := correlateFull data
  let c0 := full.drop (full.length / 2)
  let N := c0.length
  let c1 ←
    if unbias = 1 then
      pure (List.zipWith (fun (i : ℕ) v => v / ((N : ℚ) - (i : ℚ))) (List.range N) c0)
    else if unbias = 2 then do
      let cf ← pyIdx c0 0
      let cl ← pyIdx c0 (-1)
      if cl = 0 then none
      else
        let taper := npLinspace (cf / cl) 1 N
        if taper.any (fun t => decide (t = 0)) then none
        else pure (List.zipWith (fun v t => v / t) c0 taper)
    else if unbias = 0 then pure c0
    else none
  let c2 ←
    if normalize = 1 then do
      let cf ← pyIdx c1 0
      if |cf| = 0 then none else pure (c1.map (fun v => v / |cf|))
    else if normalize = 2 then do
      let m ← npMax (c1.map (fun v => |v|))
      if m = 0 then none else pure (c1.map (fun v => v / m))
    else if normalize = 0 then pure c1
    else none
  pure (c2, N)

/-- Numpy array indexing with a Python float index, as 2015-era numpy
performed it: truncate toward zero, then index with wrap-around; a NaN or
inf index raises (the caller passes `none` in that case). -/
def npIdxFloat (l : List ℚ) (q : ℚ) : Option ℚ := pyIdx l (pyTrunc q)

/-- Embedding of `gait_regularity_symmetry(data, step_period, stride_period)`
with the periods as the source's floats (`none` for a NaN/inf period, which
raises at the array-indexing conversion). -/
def gaitRegularitySymmetry (data : List ℚ) (stepPeriod stridePeriod : Option ℚ) :
    Option (ℚ × ℚ × ℚ) := do
  let ac ← autocorrelate data 2 2
  let sp ← stepPeriod
  let tp ← stridePeriod
  let a1 ← npIdxFloat ac.1 sp
  let a2 ← npIdxFloat ac.1 tp
  pure (a1, a2, |a2 - a1|)

/-- Consecutive differences `strikes[i] - strikes[i-1]`. -/
def diffs (l : List ℚ) : List ℚ := List.zipWith (fun a b => a - b) l.tail l

/-- Python slice `l[0::2]` (every other element starting at 0). -/
def everyOtherEven : List ℚ → List ℚ
  | [] => []
  | [a] => [a]
  | a :: _ :: rest => a :: everyOtherEven rest

/-- The tuple returned by `gait(...)`.  Fields that the source computes as
NaN (numpy means/stds of empty lists) are `none`; `var…` fields hold the
variance whose square root is the source's reported standard deviation. -/
structure GaitOut where
  numberOfSteps : ℕ
  cadence : ℚ
  velocity : Option ℚ
  avgStepLength : Option ℚ
  avgStrideLength : Option ℚ
  stepDurations : List ℚ
  avgStepDuration : Option ℚ
  varStepDurations : Option ℚ
  strides1 : List ℚ
  strides2 : List ℚ
  strideDurations1 : List ℚ
  strideDurations2 : List ℚ
  avgNumberOfStrides : ℚ
  avgStrideDuration : Option ℚ
  varStrideDurations : Option ℚ
  stepRegularity : ℚ
  strideRegularity : ℚ
  symmetry : ℚ
  deriving Repr, DecidableEq

/-- Embedding of `gait(strikes, data, duration, distance)`.  The outer
`Option` models a raised exception: in particular a NaN `step_period` or
`stride_period` (empty duration lists) raises when used as an array index in
`gait_regularity_symmetry`, exactly as `coefficients[nan]` does in numpy.
The `if distance:` truthiness test treats both `None` and `0` as false. -/
def gaitFn (strikes data : List ℚ) (duration : ℚ) (distance : Option ℚ) :
    Option GaitOut := do
  let stepDurations := diffs strikes
  let avgStepDuration := npMeanOpt stepDurations
  let varStepDurations := npVarOpt stepDurations
  let numberOfSteps := strikes.length
  let cadence := (numberOfSteps : ℚ) / duration
  let strides1 := everyOtherEven strikes
  let strides2 := everyOtherEven strikes.tail
  let strideDurations1 := diffs strides1
  let strideDurations2 := diffs strides2
  let avgNumberOfStrides := ((strides1.length : ℚ) + (strides2.length : ℚ)) / 2
  let avgStrideDuration := (npMeanOpt strideDurations1).bind (fun a =>
    (npMeanOpt strideDurations2).map (fun b => (a + b) / 2))
  let varStrideDurations := (npVarOpt strideDurations1).bind (fun a =>
    (npVarOpt strideDurations2).map (fun b => (a + b) / 2))
  let stepPeriod := avgStepDuration.bind (fun a => if a = 0 then none else some (1 / a))
  let stridePeriod := avgStrideDuration.bind (fun a => if a = 0 then none else some (1 / a))
  let rs ← gaitRegularitySymmetry data stepPeriod stridePeriod
  let dOk := match distance with
    | some dd => decide (¬ dd = 0)
    | none => false
  pure { numberOfSteps := numberOfSteps
         cadence := cadence
         velocity := if dOk then distance.map (fun dd => dd / duration) else none
         avgStepLength := if dOk then distance.map (fun dd => (numberOfSteps : ℚ) / dd) else none
         avgStrideLength := if dOk then distance.map (fun dd => avgNumberOfStrides / dd) else none
         stepDurations := stepDurations
         avgStepDuration := avgStepDuration
         varStepDurations := varStepDurations
         strides1 := strides1
         strides2 := strides2
         strideDurations1 := strideDurations1
         strideDurations2 := strideDurations2
         avgNumberOfStrides := avgNumberOfStrides
         avgStrideDuration := avgStrideDuration
         varStrideDurations := varStrideDurations
         stepRegularity := rs.1
         strideRegularity := rs.2.1
         symmetry := rs.2.2 }

/-! ### Periodicity estimator (`mhealthx/signals.py::compute_interpeak`)

The scipy real FFT is transcendental in general, but for a length-4 signal
every coefficient is rational (the fourth roots of unity are `±1, ±i`), so
`compute_interpeak` is embedded exactly for length-4 inputs. -/

/-- The packed output of `scipy.fftpack.rfft` on a length-4 real signal:
`[X0, Re X1, Im X1, X2]` for `Xk = sum_n x_n e^{-2 pi i n k / 4}`. -/
def rfft4 (x0 x1 x2 x3 : ℚ) : List ℚ :=
  [x0 + x1 + x2 + x3, x0 - x2, x3 - x1, x0 - x1 + x2 - x3]

/-- `np.fft.fftfreq(4, d=1/sample_rate)`: the full-spectrum frequency array
`[0, sr/4, -sr/2, -sr/4]` that the source (mis)indexes with a position in the
packed rfft array. -/
def fftfreq4 (sampleRate : ℚ) : List ℚ :=
  [0, sampleRate / 4, -sampleRate / 2, -sampleRate / 4]

/-- Ordering used to model `np.argsort` on a value list: ascending by value,
ties by position (for the pairwise-distinct values used in every theorem
below, ties never arise, so this matches numpy's unstable quicksort). -/
def argsortKey (v : List ℚ) (i j : ℕ) : Prop :=
  v.getD i 0 < v.getD j 0 ∨ (v.getD i 0 = v.getD j 0 ∧ i ≤ j)

instance (v : List ℚ) : DecidableRel (argsortKey v) := fun i j => by
  unfold argsortKey; infer_instance

instance argsortKeyTotal (v : List ℚ) : IsTotal ℕ (argsortKey v) := by
  constructor
  intro i j
  unfold argsortKey
  rcases lt_trichotomy (v.getD i 0) (v.getD j 0) with h | h | h
  · exact Or.inl (Or.inl h)
  · rcases Nat.le_total i j with hij | hij
    · exact Or.inl (Or.inr ⟨h, hij⟩)
    · exact Or.inr (Or.inr ⟨h.symm, hij⟩)
  · exact Or.inr (Or.inl h)

instance argsortKeyTrans (v : List ℚ) : IsTrans ℕ (argsortKey v) := by
  constructor
  intro a b c hab hbc
  unfold argsortKey at *
  rcases hab with h1 | ⟨h1e, h1l⟩ <;> rcases hbc with h2 | ⟨h2e, h2l⟩
  · exact Or.inl (h1.trans h2)
  · exact Or.inl (h2e ▸ h1)
  · exact Or.inl (h1e ▸ h2)
  · exact Or.inr ⟨h1e.trans h2e, h1l.trans h2l⟩

/-- Model of `np.argsort(v)`: the positions of `v` sorted ascending by
value. -/
def npArgsort (v : List ℚ) : List ℕ :=
  List.insertionSort (argsortKey v) (List.range v.length)

/-- Embedding of `compute_interpeak(data, sample_rate)` for a length-4
signal: `imax_freq = np.argsort(f_signal)[-2]` over the raw packed rfft
coefficients (no magnitudes are taken), `freq = abs(freqs[imax_freq])` with
`freqs` the full-spectrum `fftfreq` array, and
`np.int(np.round(sample_rate / freq))`.  A zero selected frequency makes the
final conversion of the resulting inf raise (OverflowError), modelled as
`none` by `interpeakOfFreq`. -/
def interpeakOfFreq (sr freq : ℚ) : Option ℤ :=
  if freq = 0 then none else some (pyRound (sr / freq))

/-- Embedding of `compute_interpeak(data, sample_rate)` for a length-4
signal: `imax_freq = np.argsort(f_signal)[-2]` over the raw packed rfft
coefficients (no magnitudes), `freq = abs(freqs[imax_freq])` with `freqs`
the full-spectrum `fftfreq` array, then the rounding conversion. -/
def computeInterpeak4 (x0 x1 x2 x3 sampleRate : ℚ) : Option ℤ :=
  interpeakOfFreq sampleRate
    |(fftfreq4 sampleRate).getD ((npArgsort (rfft4 x0 x1 x2 x3)).getD 2 0) 0|

/-- First index in `idxs` maximizing `P` (strict improvement, first wins). -/
def argmaxOver (P : List ℚ) : List ℕ → Option ℕ
  | [] => none
  | i :: rest =>
    some (rest.foldl (fun b j => if P.getD b 0 < P.getD j 0 then j else b) i)

/-- Squared magnitudes of the one-sided DFT of a length-4 signal:
`[|X0|^2, |X1|^2, |X2|^2]` (squaring preserves the magnitude ordering, and
keeps everything rational). -/
def onesidedPower4 (x0 x1 x2 x3 : ℚ) : List ℚ :=
  [(x0 + x1 + x2 + x3) ^ 2, (x0 - x2) ^ 2 + (x3 - x1) ^ 2,
   (x0 - x1 + x2 - x3) ^ 2]

/-- Modelled from the spec, for comparison with `computeInterpeak4` (claim
C5): compute the one-sided DFT magnitudes, exclude the largest bin, select
the second-largest bin, convert its one-sided frequency `i * sr / 4` via
`round(sample_rate / frequency)`; a zero selected frequency is the spec's
`DegenerateSignal` failure. -/
def interpeakSpecDC4 (x0 x1 x2 x3 sampleRate : ℚ) : Option ℤ := do
  let P := onesidedPower4 x0 x1 x2 x3
  let iMax ← npArgmax P
  let i2 ← argmaxOver P ((List.range 3).filter (fun i => decide (i ≠ iMax)))
  interpeakOfFreq sampleRate ((i2 : ℚ) * sampleRate / 4)

/-- A concrete environment (identity filter, constant interpeak estimate)
used to evaluate the gait-event pipeline at concrete inputs. -/
def constEnv (k : ℕ) : SigEnv := ⟨id, fun _ => k⟩

/-! ### Theorems -/

/-- Claim C9 counterexample: `heel_strikes` mutates its caller-supplied
signal array — after the call the buffer passed for `[0, 4]` no longer holds
`[0, 4]` (it holds the demeaned `[-2, 2]`), refuting "the caller-supplied
input array is unchanged after the call" for event detection. -/
theorem claim_C9_counterexample :
    (heelStrikesRun (constEnv 4) [(0 : ℚ), 4] 1 (2/10)).2 ≠ [(0 : ℚ), 4] := by
  simp [heelStrikesRun, demean, npMean]

/-- Claim C9 (amended): event detection (`heel_strikes`) subtracts the mean
of the input from the caller's array in place: after the call the buffer
holds the demeaned signal, which differs from the original whenever the
signal is nonempty with nonzero mean. -/
theorem claim_C9_amended_mutation (env : SigEnv) (data : List ℚ) (sr thr : ℚ) :
    (heelStrikesRun env data sr thr).2 = data.map (fun x => x - npMean data) ∧
      (data ≠ [] → npMean data ≠ 0 → (heelStrikesRun env data sr thr).2 ≠ data) := by
  refine ⟨rfl, fun hne hm heq => ?_⟩
  match data, hne with
  | x :: rest, _ =>
    have : x - npMean (x :: rest) = x := by
      have := congrArg List.head? heq
      simpa [heelStrikesRun, demean] using this
    apply hm
    linarith [this]

/-- Claim C9 witness: the mutation theorem evaluated at a concrete buffer. -/
theorem claim_C9_witness :
    (heelStrikesRun (constEnv 4) [(1 : ℚ), 3] 1 (2/10)).2 ≠ [(1 : ℚ), 3] :=
  (claim_C9_amended_mutation (constEnv 4) [(1 : ℚ), 3] 1 (2/10)).2
    (by simp) (by norm_num [npMean])

/-- Claim C4: when the filtered signal has no positive-to-negative zero
crossing, `heel_strikes` does NOT return an empty event set — it raises
(IndexError at `strikes -= strikes[0]` on the empty index list, modelled as
`none`).  The spec's promised empty-set return is therefore not what the code
does; this theorem exhibits the raising behaviour. -/
theorem claim_C4_no_crossings_raises (env : SigEnv) (data : List ℚ) (sr thr : ℚ)
    (h : crossingsNonzeroPos2neg (env.lowpass (demean data)) = []) :
    heelStrikes env data sr thr = none := by
  unfold heelStrikes heelStrikesRun coarsePeaks
  rcases hm : npMax (env.lowpass (demean data)) with _ | m
  · simp [hm]
  · simp [hm, h, coarseLoop, List.mapM.loop]

/-- Claim C4 witness: a constant signal (demeaned to all zeros, no crossings
under any linear filter; here the identity environment) makes `heel_strikes`
raise. -/
theorem claim_C4_witness :
    heelStrikes (constEnv 3) [(1 : ℚ), 1, 1, 1] 1 (2/10) = none :=
  claim_C4_no_crossings_raises (constEnv 3) [(1 : ℚ), 1, 1, 1] 1 (2/10)
    (by norm_num [constEnv, demean, npMean, crossingsNonzeroPos2neg, List.range_succ])

/-- Claim C8: with fewer than 2 gait events, `gait(...)` does NOT report its
duration metrics as None — the whole call raises (the NaN
`step_period = 1/np.mean([])` is used as an array index inside
`gait_regularity_symmetry`, raising ValueError; modelled as `none`), so no
metric is reported at all. -/
theorem claim_C8_lt2_events_raises (strikes data : List ℚ) (duration : ℚ)
    (distance : Option ℚ) (h : strikes.length < 2) :
    gaitFn strikes data duration distance = none := by
  have hsd : diffs strikes = [] := by
    match strikes, h with
    | [], _ => rfl
    | [a], _ => rfl
  unfold gaitFn gaitRegularitySymmetry
  rw [hsd]
  rcases ha : autocorrelate data 2 2 with _ | ac <;>
    simp [ha, npMeanOpt, Option.bind]

/-- Claim C8 witness: a single detected event makes `gait` raise. -/
theorem claim_C8_witness :
    gaitFn [(0 : ℚ)] [(1 : ℚ), 2, 1, 3] 2 none = none :=
  claim_C8_lt2_events_raises [(0 : ℚ)] [(1 : ℚ), 2, 1, 3] 2 none (by simp)

/-! #### Helper lemmas for the SDF counting loop -/

/-- The `pvec` accumulator of the counting loop counts, above any starting
state, the consecutive pairs whose origin symbol minus one equals the index. -/
theorem foldl_sdfStep_pvec (flag : Bool) (ps : List (ℕ × ℕ))
    (st : (ℕ → ℕ → ℚ) × (ℕ → ℚ)) (c : ℕ) :
    (ps.foldl (sdfStep flag) st).2 c
      = st.2 c + (ps.countP (fun p => decide (p.1 - 1 = c)) : ℚ) := by
  induction ps generalizing st with
  | nil => simp
  | cons p ps ih =>
    rw [List.foldl_cons, ih, List.countP_cons]
    by_cases h : p.1 - 1 = c
    · simp [sdfStep, h]
      ring
    · have h2 : ¬ c = p.1 - 1 := fun hc => h hc.symm
      simp [sdfStep, h, h2]

/-- The `morph` accumulator of the counting loop (matrix requested) counts,
above any starting state, the consecutive pairs whose destination/origin
symbols minus one match the row/column. -/
theorem foldl_sdfStep_morph (ps : List (ℕ × ℕ)) (st : (ℕ → ℕ → ℚ) × (ℕ → ℚ))
    (r c : ℕ) :
    (ps.foldl (sdfStep true) st).1 r c
      = st.1 r c + (ps.countP (fun p => decide (p.2 - 1 = r ∧ p.1 - 1 = c)) : ℚ) := by
  induction ps generalizing st with
  | nil => simp
  | cons p ps ih =>
    rw [List.foldl_cons, ih, List.countP_cons]
    by_cases h : p.2 - 1 = r ∧ p.1 - 1 = c
    · obtain ⟨ha, hb⟩ := h
      subst ha
      subst hb
      simp [sdfStep]
      ring
    · have h2 : ¬ (r = p.2 - 1 ∧ c = p.1 - 1) := fun hc => h ⟨hc.1.symm, hc.2.symm⟩
      simp [sdfStep, h, h2]

/-- When the matrix is not requested the counting loop leaves `morph`
untouched. -/
theorem foldl_sdfStep_morph_false (ps : List (ℕ × ℕ))
    (st : (ℕ → ℕ → ℚ) × (ℕ → ℚ)) :
    (ps.foldl (sdfStep false) st).1 = st.1 := by
  induction ps generalizing st with
  | nil => rfl
  | cons p ps ih =>
    rw [List.foldl_cons, ih]
    rfl

/-- Summing, over all residues below a bound, the number of elements whose
key equals the residue gives the list length, provided every key is below the
bound. -/
theorem sum_countP_key (K : ℕ) (key : ℕ × ℕ → ℕ) (ps : List (ℕ × ℕ))
    (h : ∀ p ∈ ps, key p < K) :
    ∑ i ∈ Finset.range K, ps.countP (fun p => decide (key p = i)) = ps.length := by
  induction ps with
  | nil => simp
  | cons p ps ih =>
    have hp : key p < K := h p (by simp)
    have hps : ∀ q ∈ ps, key q < K := fun q hq => h q (by simp [hq])
    simp only [List.countP_cons, Finset.sum_add_distrib, ih hps]
    have : (∑ i ∈ Finset.range K, if key p = i then 1 else 0) = 1 := by
      rw [Finset.sum_ite_eq]
      simp [Finset.mem_range, hp]
    simp only [decide_eq_true_eq, this, List.length_cons]

/-- Every symbol produced by `generate_symbol_sequence` lies in
`[1, len(partition) + 1]`. -/
theorem generateSymbolSequence_bounds {data part : List ℚ} {s : ℕ}
    (hs : s ∈ generateSymbolSequence data part) :
    1 ≤ s ∧ s ≤ part.length + 1 := by
  rcases List.mem_map.mp hs with ⟨x, _, rfl⟩
  exact ⟨Nat.le_add_left 1 _, Nat.add_le_add_right (List.findIdx_le_length _) 1⟩

/-- `mapM` over `Option` succeeds, with the same length, when every entry
succeeds. -/
theorem mapM_option_some {α β : Type} (f : α → Option β) (l : List α)
    (h : ∀ a ∈ l, (f a).isSome) :
    ∃ r, l.mapM f = some r ∧ r.length = l.length := by
  induction l with
  | nil => exact ⟨[], rfl, rfl⟩
  | cons a l ih =>
    rcases Option.isSome_iff_exists.mp (h a (by simp)) with ⟨b, hb⟩
    rcases ih (fun x hx => h x (by simp [hx])) with ⟨r, hr, hlen⟩
    refine ⟨b :: r, ?_, by simp [hlen]⟩
    rw [List.mapM_cons, hb, hr]
    rfl

/-- Python indexing succeeds on any index in `[-len, len)`. -/
theorem pyIdx_isSome {l : List ℚ} {i : ℤ} (h1 : -(l.length : ℤ) ≤ i)
    (h2 : i < (l.length : ℤ)) : (pyIdx l i).isSome := by
  unfold pyIdx
  rw [if_pos]
  · rfl
  · unfold pyWrap
    split <;> omega

/-- `max_entropy_partition` always succeeds on a nonempty signal, returning
exactly `K - 1` boundaries (for `N < K` some indices are negative and wrap
around Python-style, but never out of range). -/
theorem maxEntropyPartition_some (data : List ℚ) (K : ℕ) (hd : data ≠ []) :
    ∃ part, maxEntropyPartition data K = some part ∧ part.length = K - 1 := by
  have hn : 0 < data.length := List.length_pos.mpr hd
  have hsortlen : (List.insertionSort (· ≤ ·) data).length = data.length :=
    (List.perm_insertionSort _ _).length_eq
  unfold maxEntropyPartition
  have h : ∀ ip ∈ List.range (K - 1),
      (pyIdx (List.insertionSort (· ≤ ·) data)
        (⌊(((ip : ℚ) + 1) * (data.length : ℚ)) / (K : ℚ)⌋ - 1)).isSome := by
    intro ip hip
    have hipK : ip < K - 1 := List.mem_range.mp hip
    have hK : 2 ≤ K := by omega
    set q : ℚ := (((ip : ℚ) + 1) * (data.length : ℚ)) / (K : ℚ) with hq
    have hKpos : (0 : ℚ) < (K : ℚ) := by positivity
    have hnpos : (0 : ℚ) < (data.length : ℚ) := by exact_mod_cast hn
    have hqpos : 0 ≤ q := by positivity
    have hfl0 : 0 ≤ ⌊q⌋ := Int.floor_nonneg.mpr hqpos
    have hqlt : q < (data.length : ℚ) := by
      rw [hq, div_lt_iff₀ hKpos]
      have h1 : ((ip : ℚ) + 1) < (K : ℚ) := by
        have h2 : ip + 1 < K := by omega
        exact_mod_cast h2
      nlinarith
    have hfllt : ⌊q⌋ < (data.length : ℤ) := Int.floor_lt.mpr (by exact_mod_cast hqlt)
    apply pyIdx_isSome <;> rw [hsortlen] <;> omega
  rcases mapM_option_some _ _ h with ⟨r, hr, hlen⟩
  exact ⟨r, hr, by simpa using hlen⟩

/-- Claim C1: for any signal of length at least 2 and any `K ≥ 2`, the SDF
pipeline produces symbols on which every row of the normalized morph matrix
sums to 1 (a zero-sum row being replaced by the stationary vector), and the
stationary vector sums to 1 — exact rational arithmetic in place of the
source's floating tolerance. -/
theorem claim_C1_sdf_stochastic (data : List ℚ) (K : ℕ) (hK : 2 ≤ K)
    (hlen : 2 ≤ data.length) :
    ∃ symbols, sdfSymbols data K = some symbols ∧
      (∀ r < K,
        ∑ c ∈ Finset.range K, (analyzeSymbolSequence symbols K true).1 r c = 1) ∧
      ∑ c ∈ Finset.range K, (analyzeSymbolSequence symbols K true).2 c = 1 := by
  have hd : data ≠ [] := by
    intro h
    rw [h] at hlen
    simp at hlen
  rcases maxEntropyPartition_some data K hd with ⟨part, hpart, hplen⟩
  refine ⟨generateSymbolSequence data part, ?_, ?_⟩
  · unfold sdfSymbols
    rw [hpart]
    rfl
  set symbols := generateSymbolSequence data part with hsym
  have hsymlen : symbols.length = data.length := by
    rw [hsym]
    unfold generateSymbolSequence
    simp
  have hkey : ∀ p ∈ sdfPairs symbols, p.1 - 1 < K := by
    intro p hp
    have h1 : p.1 ∈ symbols := (List.of_mem_zip hp).1
    have hb := generateSymbolSequence_bounds h1
    rw [hplen] at hb
    omega
  have hpairslen : (sdfPairs symbols).length = data.length - 1 := by
    unfold sdfPairs
    rw [List.length_zip, List.length_tail, hsymlen]
    omega
  have hsum : ∑ i ∈ Finset.range K, (analyzeRaw symbols true).2 i
      = ((data.length : ℚ) - 1) := by
    unfold analyzeRaw
    have : ∀ i, ((sdfPairs symbols).foldl (sdfStep true)
        ((fun _ _ => 0), fun _ => 0)).2 i
        = ((sdfPairs symbols).countP (fun p => decide (p.1 - 1 = i)) : ℚ) := by
      intro i
      rw [foldl_sdfStep_pvec]
      simp
    simp only [this]
    rw [← Nat.cast_sum]
    rw [sum_countP_key K (fun p => p.1 - 1) _ hkey, hpairslen]
    have : (1 : ℚ) ≤ (data.length : ℚ) := by
      have : (1 : ℕ) ≤ data.length := by omega
      exact_mod_cast this
    push_cast [Nat.cast_sub (by omega : 1 ≤ data.length)]
    ring
  have hSpos : ∑ i ∈ Finset.range K, (analyzeRaw symbols true).2 i ≠ 0 := by
    rw [hsum]
    have : (2 : ℚ) ≤ (data.length : ℚ) := by exact_mod_cast hlen
    intro h
    linarith
  have hpvecS : ∑ c ∈ Finset.range K, (analyzeRaw symbols true).2 c
      / (∑ i ∈ Finset.range K, (analyzeRaw symbols true).2 i) = 1 := by
    rw [← Finset.sum_div]
    exact div_self hSpos
  refine ⟨fun r hr => ?_, hpvecS⟩
  by_cases hz : (∑ c2 ∈ Finset.range K, (analyzeRaw symbols true).1 r c2) = 0
  · have hc : ∀ c, (analyzeSymbolSequence symbols K true).1 r c
        = (analyzeRaw symbols true).2 c
          / (∑ i ∈ Finset.range K, (analyzeRaw symbols true).2 i) := by
      intro c
      simp only [analyzeSymbolSequence]
      simp [hr, hz]
    rw [Finset.sum_congr rfl (fun c _ => hc c)]
    exact hpvecS
  · have hc : ∀ c, (analyzeSymbolSequence symbols K true).1 r c
        = (analyzeRaw symbols true).1 r c
          / (∑ c2 ∈ Finset.range K, (analyzeRaw symbols true).1 r c2) := by
      intro c
      simp only [analyzeSymbolSequence]
      simp [hr, hz]
    rw [Finset.sum_congr rfl (fun c _ => hc c), ← Finset.sum_div]
    exact div_self hz

/-- Reading a mapped range below the bound. -/
theorem getD_map_range (K i : ℕ) (hi : i < K) (g : ℕ → ℚ) (d : ℚ) :
    ((List.range K).map g).getD i d = g i := by
  rw [List.getD_eq_getElem _ _ (by simpa using hi), List.getElem_map,
    List.getElem_range]

/-- Reading a mapped range of lists below the bound. -/
theorem getD_map_range_list (K i : ℕ) (hi : i < K) (g : ℕ → List ℚ) (d : List ℚ) :
    ((List.range K).map g).getD i d = g i := by
  rw [List.getD_eq_getElem _ _ (by simpa using hi), List.getElem_map,
    List.getElem_range]

/-- Length of the flattening of uniform-length blocks. -/
theorem flatten_uniform_length {K : ℕ} (L : List (List ℚ))
    (h : ∀ l ∈ L, l.length = K) : L.flatten.length = L.length * K := by
  induction L with
  | nil => simp
  | cons l L ih =>
    rw [List.flatten_cons, List.length_append, h l (by simp),
      ih (fun x hx => h x (by simp [hx])), List.length_cons]
    ring

/-- Reading position `i * K + j` of the flattening of uniform-length-`K`
blocks reads position `j` of block `i`. -/
theorem flatten_uniform_getD {K : ℕ} (L : List (List ℚ))
    (h : ∀ l ∈ L, l.length = K) (i j : ℕ) (hi : i < L.length) (hj : j < K) :
    L.flatten.getD (i * K + j) 0 = (L.getD i []).getD j 0 := by
  induction L generalizing i with
  | nil => simp at hi
  | cons l L ih =>
    have hl : l.length = K := h l (by simp)
    cases i with
    | zero =>
      rw [List.flatten_cons, Nat.zero_mul, Nat.zero_add,
        List.getD_append _ _ _ _ (by omega)]
      rfl
    | succ i =>
      have harith : (i + 1) * K + j = l.length + (i * K + j) := by
        rw [hl]
        ring
      rw [List.flatten_cons, harith, List.getD_append_right _ _ _ _ (by omega),
        Nat.add_sub_cancel_left]
      exact ih (fun x hx => h x (by simp [hx])) i (by simpa using hi)

/-- Claim C2: the counting loop increments `pvec[s_prev - 1]` for every
consecutive pair and, when the matrix is requested, `morph[s_next - 1,
s_prev - 1]` (destination row, origin column) — stated as exact pair counts —
and the feature vector of `sdf_features` is the row-major flattening of the
transposed morph matrix (length `K²`) when the flag is set, and the length-`K`
stationary vector otherwise. -/
theorem claim_C2_counting_and_features (symbols : List ℕ) (r c : ℕ)
    (data : List ℚ) (K : ℕ) (fT fF : List ℚ) :
    ((analyzeRaw symbols false).2 c
      = ((sdfPairs symbols).countP (fun p => decide (p.1 - 1 = c)) : ℚ))
    ∧ ((analyzeRaw symbols true).2 c
      = ((sdfPairs symbols).countP (fun p => decide (p.1 - 1 = c)) : ℚ))
    ∧ ((analyzeRaw symbols true).1 r c
      = ((sdfPairs symbols).countP
          (fun p => decide (p.2 - 1 = r ∧ p.1 - 1 = c)) : ℚ))
    ∧ (sdfFeatures data K true = some fT →
        ∃ syms, sdfSymbols data K = some syms ∧ fT.length = K * K ∧
          ∀ i j, i < K → j < K →
            fT.getD (i * K + j) 0 = (analyzeSymbolSequence syms K true).1 j i)
    ∧ (sdfFeatures data K false = some fF →
        ∃ syms, sdfSymbols data K = some syms ∧ fF.length = K ∧
          ∀ i, i < K → fF.getD i 0 = (analyzeSymbolSequence syms K false).2 i) := by
  refine ⟨?_, ?_, ?_, ?_, ?_⟩
  · rw [show (analyzeRaw symbols false).2 c
        = ((sdfPairs symbols).foldl (sdfStep false)
            ((fun _ _ => 0), fun _ => 0)).2 c from rfl, foldl_sdfStep_pvec]
    simp
  · rw [show (analyzeRaw symbols true).2 c
        = ((sdfPairs symbols).foldl (sdfStep true)
            ((fun _ _ => 0), fun _ => 0)).2 c from rfl, foldl_sdfStep_pvec]
    simp
  · rw [show (analyzeRaw symbols true).1 r c
        = ((sdfPairs symbols).foldl (sdfStep true)
            ((fun _ _ => 0), fun _ => 0)).1 r c from rfl, foldl_sdfStep_morph]
    simp
  · intro hT
    unfold sdfFeatures at hT
    rcases hsy : sdfSymbols data K with _ | syms
    · rw [hsy] at hT
      simp at hT
    · rw [hsy] at hT
      simp only [Option.bind_eq_bind, Option.some_bind, if_pos rfl] at hT
      refine ⟨syms, rfl, ?_, ?_⟩
      · rw [← Option.some_inj.mp hT, List.flatMap_def]
        rw [flatten_uniform_length (K := K) _ ?hlen, List.length_map,
          List.length_range]
        case hlen =>
          intro l hl
          rcases List.mem_map.mp hl with ⟨a, _, rfl⟩
          simp
      · intro i j hi hj
        rw [← Option.some_inj.mp hT, List.flatMap_def]
        rw [flatten_uniform_getD (K := K) _ ?hlen2 i j (by simpa using hi) hj]
        case hlen2 =>
          intro l hl
          rcases List.mem_map.mp hl with ⟨a, _, rfl⟩
          simp
        rw [getD_map_range_list K i hi, getD_map_range K j hj]
  · intro hF
    unfold sdfFeatures at hF
    rcases hsy : sdfSymbols data K with _ | syms
    · rw [hsy] at hF
      simp at hF
    · rw [hsy] at hF
      simp only [Option.bind_eq_bind, Option.some_bind, Bool.false_eq_true,
        if_neg (by simp : ¬ (false = true))] at hF
      refine ⟨syms, rfl, ?_, ?_⟩
      · rw [← Option.some_inj.mp hF]
        simp
      · intro i hi
        rw [← Option.some_inj.mp hF, getD_map_range K i hi]

/-- Claim C2 witness: the counting characterization and both feature shapes
evaluated on the concrete signal `[0, 1, 2, 3]` with `K = 2`
(symbols `[1, 2, 2, 2]`). -/
theorem claim_C2_witness :
    ((analyzeRaw [1, 2, 2, 2] true).1 1 0
      = ((sdfPairs [1, 2, 2, 2]).countP
          (fun p => decide (p.2 - 1 = 1 ∧ p.1 - 1 = 0)) : ℚ))
    ∧ (∃ syms, sdfSymbols [(0 : ℚ), 1, 2, 3] 2 = some syms ∧
        ([(1 : ℚ)/3, 1/3, 2/3, 2/3]).length = 2 * 2 ∧
        ∀ i j, i < 2 → j < 2 →
          ([(1 : ℚ)/3, 1/3, 2/3, 2/3]).getD (i * 2 + j) 0
            = (analyzeSymbolSequence syms 2 true).1 j i)
    ∧ (∃ syms, sdfSymbols [(0 : ℚ), 1, 2, 3] 2 = some syms ∧
        ([(1 : ℚ)/3, 2/3]).length = 2 ∧
        ∀ i, i < 2 →
          ([(1 : ℚ)/3, 2/3]).getD i 0 = (analyzeSymbolSequence syms 2 false).2 i) := by
  have h := claim_C2_counting_and_features [1, 2, 2, 2] 1 0 [(0 : ℚ), 1, 2, 3] 2
    [(1 : ℚ)/3, 1/3, 2/3, 2/3] [(1 : ℚ)/3, 2/3]
  refine ⟨h.2.2.1, h.2.2.2.1 ?_, h.2.2.2.2 ?_⟩
  · norm_num [sdfFeatures, sdfSymbols, maxEntropyPartition, generateSymbolSequence,
      pyIdx, pyWrap, analyzeSymbolSequence, analyzeRaw, sdfPairs, sdfStep,
      List.range_succ, List.mapM.loop, Int.toNat, List.insertionSort,
      List.orderedInsert, List.findIdx, List.findIdx.go, Finset.sum_range_succ]
  · norm_num [sdfFeatures, sdfSymbols, maxEntropyPartition, generateSymbolSequence,
      pyIdx, pyWrap, analyzeSymbolSequence, analyzeRaw, sdfPairs, sdfStep,
      List.range_succ, List.mapM.loop, Int.toNat, List.insertionSort,
      List.orderedInsert, List.findIdx, List.findIdx.go, Finset.sum_range_succ]

/-- Claim C1 witness: the stochasticity theorem applied to the concrete
signal `[0, 1, 2, 3]` with `K = 2`. -/
theorem claim_C1_witness :
    ∃ symbols, sdfSymbols [(0 : ℚ), 1, 2, 3] 2 = some symbols ∧
      (∀ r < 2,
        ∑ c ∈ Finset.range 2, (analyzeSymbolSequence symbols 2 true).1 r c = 1) ∧
      ∑ c ∈ Finset.range 2, (analyzeSymbolSequence symbols 2 true).2 c = 1 :=
  claim_C1_sdf_stochastic [(0 : ℚ), 1, 2, 3] 2 (by norm_num) (by norm_num)

/-! #### Partition monotonicity (claim C10) and bin counts (claim C3) -/

/-- `pyIdx` at a plain in-range nonnegative index. -/
theorem pyIdx_eq_getD {l : List ℚ} {i : ℤ} (h0 : 0 ≤ i) (h2 : i < (l.length : ℤ)) :
    pyIdx l i = some (l.getD i.toNat 0) := by
  have hw : pyWrap l.length i = i := by
    unfold pyWrap
    rw [if_neg (by omega)]
  unfold pyIdx
  rw [hw, if_pos ⟨h0, h2⟩]

/-- `mapM` over `Option` computed pointwise. -/
theorem mapM_eq_map {α β : Type} (f : α → Option β) (g : α → β) (l : List α)
    (h : ∀ a ∈ l, f a = some (g a)) : l.mapM f = some (l.map g) := by
  induction l with
  | nil => rfl
  | cons a l ih =>
    rw [List.mapM_cons, h a (by simp), ih (fun x hx => h x (by simp [hx]))]
    rfl

/-- Reading a `(· ≤ ·)`-sorted list at increasing positions is monotone. -/
theorem sorted_getD_mono {l : List ℚ} (hs : List.Sorted (· ≤ ·) l) {i j : ℕ}
    (hij : i ≤ j) (hj : j < l.length) : l.getD i 0 ≤ l.getD j 0 := by
  rw [List.getD_eq_getElem _ _ (lt_of_le_of_lt hij hj), List.getD_eq_getElem _ _ hj]
  exact hs.rel_get_of_le (by exact hij)

/-- Claim C10 counterexample: for a 2-sample signal and `K = 4` symbols the
first boundary index is `floor(2/4) - 1 = -1`, which wraps to the LAST sorted
sample, so the returned boundary sequence `[1, 0, 0]` is decreasing —
refuting "the returned boundary sequence is non-decreasing" for every input
array. -/
theorem claim_C10_counterexample :
    maxEntropyPartition [(0 : ℚ), 1] 4 = some [1, 0, 0] ∧
      ¬ List.Chain' (· ≤ ·) [(1 : ℚ), 0, 0] := by
  constructor
  · norm_num [maxEntropyPartition, pyIdx, pyWrap, List.range_succ,
      List.mapM.loop, Int.toNat, List.insertionSort, List.orderedInsert]
  · intro h
    rcases h with _ | ⟨h1, _⟩
    norm_num at h1

/-- Claim C10 (amended): `max_entropy_partition` returns exactly `K - 1`
boundaries for every nonempty input, and the boundary sequence is
non-decreasing provided the signal has at least `K` samples (so that no
boundary index is negative and wraps around). -/
theorem claim_C10_amended_partition (data : List ℚ) (K : ℕ) (hd : data ≠ [])
    (hK : 2 ≤ K) (hNK : K ≤ data.length) :
    ∃ part, maxEntropyPartition data K = some part ∧ part.length = K - 1 ∧
      List.Chain' (· ≤ ·) part := by
  have hn : 0 < data.length := List.length_pos.mpr hd
  set sorted := List.insertionSort (· ≤ ·) data with hsorted
  have hslen : sorted.length = data.length :=
    (List.perm_insertionSort _ _).length_eq
  have hsort : List.Sorted (· ≤ ·) sorted := List.sorted_insertionSort _ _
  have hbounds : ∀ ip, ip < K - 1 →
      (1 : ℤ) ≤ ⌊(((ip : ℚ) + 1) * (data.length : ℚ)) / (K : ℚ)⌋ ∧
        ⌊(((ip : ℚ) + 1) * (data.length : ℚ)) / (K : ℚ)⌋ < (data.length : ℤ) := by
    intro ip hip
    have hKpos : (0 : ℚ) < (K : ℚ) := by positivity
    have hnpos : (0 : ℚ) < (data.length : ℚ) := by exact_mod_cast hn
    have hKN : (K : ℚ) ≤ (data.length : ℚ) := by exact_mod_cast hNK
    constructor
    · rw [Int.le_floor]
      rw [le_div_iff₀ hKpos]
      push_cast
      nlinarith [mul_nonneg (Nat.cast_nonneg (α := ℚ) ip) (le_of_lt hnpos)]
    · rw [Int.floor_lt]
      rw [div_lt_iff₀ hKpos]
      have h3 : ((ip : ℚ) + 1) < (K : ℚ) := by
        have : ip + 1 < K := by omega
        exact_mod_cast this
      push_cast
      nlinarith
  have hmap : maxEntropyPartition data K
      = some ((List.range (K - 1)).map (fun (ip : ℕ) =>
          sorted.getD (⌊(((ip : ℚ) + 1) * (data.length : ℚ)) / (K : ℚ)⌋ - 1).toNat 0)) := by
    simp only [maxEntropyPartition, ← hsorted]
    apply mapM_eq_map
    intro ip hip
    have hb := hbounds ip (List.mem_range.mp hip)
    exact pyIdx_eq_getD (by omega) (by rw [hslen]; omega)
  refine ⟨_, hmap, by simp, ?_⟩
  rw [List.chain'_iff_pairwise, List.pairwise_map]
  have hmono := List.pairwise_lt_range (K - 1)
  refine hmono.imp_of_mem ?_
  intro a b ha hb hab
  have hba := hbounds a (List.mem_range.mp ha)
  have hbb := hbounds b (List.mem_range.mp hb)
  apply sorted_getD_mono hsort
  · apply Int.toNat_le_toNat
    have hq : (((a : ℚ) + 1) * (data.length : ℚ)) / (K : ℚ)
        ≤ (((b : ℚ) + 1) * (data.length : ℚ)) / (K : ℚ) := by
      have hc : (a : ℚ) ≤ (b : ℚ) := by exact_mod_cast hab.le
      gcongr
    have := Int.floor_le_floor hq
    omega
  · rw [hslen]
    omega

/-- Claim C10 witness: the amended theorem at `data = [0, 1, 2, 3]`, `K = 2`. -/
theorem claim_C10_witness :
    ∃ part, maxEntropyPartition [(0 : ℚ), 1, 2, 3] 2 = some part ∧
      part.length = 2 - 1 ∧ List.Chain' (· ≤ ·) part :=
  claim_C10_amended_partition [(0 : ℚ), 1, 2, 3] 2 (by simp) (by norm_num)
    (by norm_num)

/-- Counting over `List.range` as a `Finset` cardinality. -/
theorem countP_range_card (p : ℕ → Bool) (N : ℕ) :
    (List.range N).countP p = ((Finset.range N).filter (fun i => p i = true)).card := by
  rw [List.countP_eq_length_filter, Finset.card_filter]
  induction N with
  | zero => rfl
  | succ n ih =>
    rw [Finset.sum_range_succ, List.range_succ, List.filter_append,
      List.length_append, ih]
    by_cases h : p n <;> simp [h]

/-- Characterization of natural division by a positive divisor. -/
theorem nat_div_eq_iff {n m c : ℕ} (hm : 0 < m) :
    n / m = c ↔ c * m ≤ n ∧ n < (c + 1) * m := by
  constructor
  · intro h
    exact ⟨(Nat.le_div_iff_mul_le hm).mp (le_of_eq h.symm),
      (Nat.div_lt_iff_lt_mul hm).mp (by omega)⟩
  · rintro ⟨h1, h2⟩
    have ha := (Nat.le_div_iff_mul_le hm).mpr h1
    have hb := (Nat.div_lt_iff_lt_mul hm).mpr h2
    omega

/-- Claim C3 counterexample: the sorted, evenly spaced signal `[0, 1]` with
`K = 2` (so `N / K = 1`) yields the symbol sequence `[2, 2]` — the first bin
receives 0 samples, not `N / K = 1`, refuting the claimed equal bin counts.
(The boundary value itself always falls in the next bin, the source's
comparison being strict.) -/
theorem claim_C3_counterexample :
    sdfSymbols [(0 : ℚ), 1] 2 = some [2, 2] ∧ ([2, 2] : List ℕ).count 1 = 0 := by
  constructor
  · norm_num [sdfSymbols, maxEntropyPartition, generateSymbolSequence, pyIdx,
      pyWrap, List.range_succ, List.mapM.loop, Int.toNat, List.insertionSort,
      List.orderedInsert, List.findIdx, List.findIdx.go]
  · rfl

/-- Claim C3 (amended): for `K ≥ 2` symbols and a strictly increasing, evenly
spaced signal of length `N = K * m` (`m ≥ 1`), the symbol counts are NOT all
`N / K`: the first bin receives `m - 1` samples, every interior bin `m`, and
the last bin `m + 1` (each boundary value is assigned to the bin above it). -/
theorem claim_C3_amended_bin_counts (K m : ℕ) (a d : ℚ) (hK : 2 ≤ K)
    (hm : 1 ≤ m) (hd : 0 < d) :
    ∃ syms, sdfSymbols ((List.range (K * m)).map (fun (i : ℕ) => a + (i : ℚ) * d)) K
        = some syms ∧
      syms.count 1 = m - 1 ∧
      (∀ j, 2 ≤ j → j ≤ K - 1 → syms.count j = m) ∧
      syms.count K = m + 1 := by
  set N := K * m with hN
  set f : ℕ → ℚ := fun i => a + (i : ℚ) * d with hf
  set data := (List.range N).map f with hdata
  have hm0 : 0 < m := hm
  have hdatalen : data.length = N := by simp [hdata]
  have hflt : ∀ i j : ℕ, f i < f j ↔ i < j := by
    intro i j
    constructor
    · intro h
      by_contra hc
      have : (j : ℚ) ≤ (i : ℚ) := by exact_mod_cast Nat.le_of_not_lt hc
      have : f j ≤ f i := by
        simp only [hf]
        nlinarith
      linarith
    · intro h
      have : (i : ℚ) < (j : ℚ) := by exact_mod_cast h
      simp only [hf]
      nlinarith
  have hsorted : List.Sorted (· ≤ ·) data := by
    rw [hdata, List.Sorted, List.pairwise_map]
    exact (List.pairwise_lt_range N).imp (fun h => ((hflt _ _).mpr h).le)
  have hsorteq : List.insertionSort (· ≤ ·) data = data :=
    hsorted.insertionSort_eq
  have hfloor : ∀ ip : ℕ,
      ⌊(((ip : ℚ) + 1) * (data.length : ℚ)) / (K : ℚ)⌋ = (((ip + 1) * m : ℕ) : ℤ) := by
    intro ip
    have hKQ : (K : ℚ) ≠ 0 := by positivity
    have heq : (((ip : ℚ) + 1) * (data.length : ℚ)) / (K : ℚ)
        = (((ip + 1) * m : ℕ) : ℚ) := by
      rw [hdatalen, hN]
      push_cast
      field_simp
      ring
    rw [heq, Int.floor_natCast]
  have hPbounds : ∀ ip : ℕ, ip < K - 1 → 1 ≤ (ip + 1) * m ∧ (ip + 1) * m ≤ N := by
    intro ip hip
    constructor
    · calc 1 = 1 * 1 := rfl
        _ ≤ (ip + 1) * m := Nat.mul_le_mul (by omega) hm
    · rw [hN]
      exact Nat.mul_le_mul_right m (by omega)
  have hpart : maxEntropyPartition data K
      = some ((List.range (K - 1)).map (fun (ip : ℕ) => f ((ip + 1) * m - 1))) := by
    simp only [maxEntropyPartition, hsorteq]
    apply mapM_eq_map
    intro ip hip
    have hip2 := List.mem_range.mp hip
    have hPb := hPbounds ip hip2
    have hPlt : (ip + 1) * m - 1 < N := by
      have h1 : (ip + 1) * m ≤ (K - 1) * m := Nat.mul_le_mul_right m (by omega)
      have h2 : (K - 1) * m < K * m := by
        apply Nat.mul_lt_mul_of_lt_of_le (by omega) (le_refl m) hm0
      omega
    rw [hfloor ip, pyIdx_eq_getD (by omega) (by rw [hdatalen]; omega)]
    have htn : ((((ip + 1) * m : ℕ) : ℤ) - 1).toNat = (ip + 1) * m - 1 := by omega
    rw [htn, hdata, getD_map_range N _ (by omega) f 0]
  set g : ℕ → ℚ := fun ip => f ((ip + 1) * m - 1) with hg
  have hplen : ((List.range (K - 1)).map g).length = K - 1 := by simp
  -- the predicate the symbol search evaluates at boundary position jp
  have hpred : ∀ i jp : ℕ, jp < K - 1 →
      ((decide (f i < g jp) = true) ↔ i + 2 ≤ (jp + 1) * m) := by
    intro i jp hjp
    rw [decide_eq_true_eq, hg]
    have h1 := (hPbounds jp hjp).1
    rw [hflt]
    omega
  -- closed form of one symbol
  have hsym : ∀ i : ℕ,
      ((List.range (K - 1)).map g).findIdx (fun b => decide (f i < b)) + 1
        = min K ((i + 1) / m + 1) := by
    intro i
    set q := (i + 1) / m with hq
    have hqm1 : q * m ≤ i + 1 := Nat.div_mul_le_self _ _
    have hqm2 : i + 1 < (q + 1) * m :=
      (Nat.div_lt_iff_lt_mul hm0).mp (Nat.lt_succ_self q)
    by_cases hcase : q + 1 < K
    · have hqlen : q < ((List.range (K - 1)).map g).length := by omega
      have hfi : ((List.range (K - 1)).map g).findIdx (fun b => decide (f i < b)) = q := by
        rw [List.findIdx_eq hqlen]
        constructor
        · rw [List.getElem_map, List.getElem_range]
          exact (hpred i q (by omega)).mpr (by omega)
        · intro j hj
          rw [List.getElem_map, List.getElem_range]
          have hle : (j + 1) * m ≤ q * m := Nat.mul_le_mul_right m (by omega)
          rw [Bool.eq_false_iff]
          intro hcontra
          have := (hpred i j (by omega)).mp hcontra
          omega
      rw [hfi]
      omega
    · have hfi : ((List.range (K - 1)).map g).findIdx (fun b => decide (f i < b))
          = ((List.range (K - 1)).map g).length := by
        rw [List.findIdx_eq_length]
        intro x hx
        rcases List.mem_map.mp hx with ⟨jp, hjp, rfl⟩
        have hjp2 := List.mem_range.mp hjp
        have hle : (jp + 1) * m ≤ q * m := Nat.mul_le_mul_right m (by omega)
        rw [Bool.eq_false_iff]
        intro hcontra
        have := (hpred i jp hjp2).mp hcontra
        omega
      rw [hfi, hplen]
      omega
  have hsyms : sdfSymbols data K
      = some ((List.range N).map (fun i => min K ((i + 1) / m + 1))) := by
    unfold sdfSymbols
    rw [hpart, Option.map_some']
    congr 1
    unfold generateSymbolSequence
    rw [hdata, List.map_map]
    apply List.map_congr_left
    intro i _
    exact hsym i
  refine ⟨_, hsyms, ?_, ?_, ?_⟩
  · -- bin 1 receives m - 1 samples
    rw [List.count_eq_countP, List.countP_map, countP_range_card]
    have hfe : (Finset.range N).filter
        (fun i => (((fun x => x == 1) ∘ fun i => min K ((i + 1) / m + 1)) i) = true)
        = Finset.range (m - 1) := by
      apply Finset.ext
      intro i
      simp only [Finset.mem_filter, Finset.mem_range, Function.comp_apply,
        beq_iff_eq]
      constructor
      · rintro ⟨hiN, hmin⟩
        have hq0 : (i + 1) / m = 0 := by omega
        have := (nat_div_eq_iff hm0).mp hq0
        omega
      · intro hi
        have hdiv : (i + 1) / m = 0 := by
          apply (nat_div_eq_iff hm0).mpr
          omega
        have hmN : m ≤ N := by
          rw [hN]
          calc m = 1 * m := (Nat.one_mul m).symm
            _ ≤ K * m := Nat.mul_le_mul_right m (by omega)
        refine ⟨by omega, by omega⟩
    rw [hfe, Finset.card_range]
  · -- interior bins receive m samples
    intro j hj2 hjK
    rw [List.count_eq_countP, List.countP_map, countP_range_card]
    have hAB : (j - 1) * m + m = j * m := by
      have : (j - 1) + 1 = j := by omega
      calc (j - 1) * m + m = ((j - 1) + 1) * m := by rw [Nat.succ_mul]
        _ = j * m := by rw [this]
    have hBN : j * m ≤ N := by
      rw [hN]
      exact Nat.mul_le_mul_right m (by omega)
    have hA1 : 1 ≤ (j - 1) * m := by
      calc 1 = 1 * 1 := rfl
        _ ≤ (j - 1) * m := Nat.mul_le_mul (by omega) hm
    have hBB : (j - 1 + 1) * m = j * m := by
      have hj1 : j - 1 + 1 = j := by omega
      rw [hj1]
    have hfe : (Finset.range N).filter
        (fun i => (((fun x => x == j) ∘ fun i => min K ((i + 1) / m + 1)) i) = true)
        = Finset.Ico ((j - 1) * m - 1) (j * m - 1) := by
      apply Finset.ext
      intro i
      simp only [Finset.mem_filter, Finset.mem_range, Function.comp_apply,
        beq_iff_eq, Finset.mem_Ico]
      constructor
      · rintro ⟨hiN, hmin⟩
        have hqv : (i + 1) / m = j - 1 := by omega
        have hiv := (nat_div_eq_iff hm0).mp hqv
        rw [hBB] at hiv
        omega
      · rintro ⟨h1, h2⟩
        have hqv : (i + 1) / m = j - 1 := by
          apply (nat_div_eq_iff hm0).mpr
          rw [hBB]
          omega
        refine ⟨by omega, by omega⟩
    rw [hfe, Nat.card_Ico]
    omega
  · -- the last bin receives m + 1 samples
    rw [List.count_eq_countP, List.countP_map, countP_range_card]
    have hAB : (K - 1) * m + m = K * m := by
      have hK1 : (K - 1) + 1 = K := by omega
      calc (K - 1) * m + m = ((K - 1) + 1) * m := by rw [Nat.succ_mul]
        _ = K * m := by rw [hK1]
    have hA1 : 1 ≤ (K - 1) * m := by
      calc 1 = 1 * 1 := rfl
        _ ≤ (K - 1) * m := Nat.mul_le_mul (by omega) hm
    have hfe : (Finset.range N).filter
        (fun i => (((fun x => x == K) ∘ fun i => min K ((i + 1) / m + 1)) i) = true)
        = Finset.Ico ((K - 1) * m - 1) N := by
      apply Finset.ext
      intro i
      simp only [Finset.mem_filter, Finset.mem_range, Function.comp_apply,
        beq_iff_eq, Finset.mem_Ico]
      constructor
      · rintro ⟨hiN, hmin⟩
        have hge : K - 1 ≤ (i + 1) / m := by omega
        have := (Nat.le_div_iff_mul_le hm0).mp hge
        omega
      · rintro ⟨h1, h2⟩
        have hge : K - 1 ≤ (i + 1) / m := by
          apply (Nat.le_div_iff_mul_le hm0).mpr
          omega
        refine ⟨h2, by omega⟩
    rw [hfe, Nat.card_Ico]
    omega

/-- Claim C3 witness: the amended bin counts at `K = 3`, `m = 2`
(signal `[0, 1, 2, 3, 4, 5]`): bins receive 1, 2, 3 samples. -/
theorem claim_C3_witness :
    ∃ syms, sdfSymbols ((List.range (3 * 2)).map (fun (i : ℕ) => 0 + (i : ℚ) * 1)) 3
        = some syms ∧
      syms.count 1 = 2 - 1 ∧
      (∀ j, 2 ≤ j → j ≤ 3 - 1 → syms.count j = 2) ∧
      syms.count 3 = 2 + 1 :=
  claim_C3_amended_bin_counts 3 2 0 1 (by norm_num) (by norm_num) (by norm_num)

/-! #### Periodicity estimator (claim C5) -/

/-- Claim C5 counterexample: for the 4-sample signal `[2, 1, -1, -4]` at
sample rate 8, the largest one-sided DFT magnitude is at bin 1, NOT the DC
bin (the signal has negative sum, so its DC coefficient is small); the code's
argsort of the raw packed rfft coefficients `[-2, 3, -5, 4]` selects index 1
and returns 4, while the spec's magnitude-based second-largest-bin algorithm
would select one-sided bin 2 and return 2. -/
theorem claim_C5_counterexample :
    npArgmax (onesidedPower4 2 1 (-1) (-4)) = some 1 ∧
      computeInterpeak4 2 1 (-1) (-4) 8 = some 4 ∧
      interpeakSpecDC4 2 1 (-1) (-4) 8 = some 2 ∧
      ¬ ((4 : ℤ) = 2) := by
  refine ⟨?_, ?_, ?_, by norm_num⟩
  · norm_num [onesidedPower4, npArgmax, argmaxGo]
  · norm_num [computeInterpeak4, interpeakOfFreq, rfft4, fftfreq4, npArgsort,
      argsortKey, List.insertionSort, List.orderedInsert, List.range_succ,
      pyRound, Int.floor_eq_iff]
  · norm_num [interpeakSpecDC4, interpeakOfFreq, onesidedPower4, npArgmax,
      argmaxGo, argmaxOver, List.range_succ, pyRound, Int.floor_eq_iff]

set_option maxHeartbeats 1000000 in
/-- Claim C5 (amended): `compute_interpeak` does not use DFT magnitudes and
does not exclude a DC bin; on a length-4 signal with pairwise distinct packed
rfft coefficients it selects the index of the second-largest RAW coefficient
value (exactly one coefficient is strictly greater), looks that index up in
the full-spectrum `fftfreq` array, and returns
`round(sample_rate / abs(freq))` (failing if the selected frequency is
zero). -/
theorem claim_C5_amended_selection (x0 x1 x2 x3 sr : ℚ)
    (hdist : List.Pairwise (· ≠ ·) (rfft4 x0 x1 x2 x3)) :
    ∃ i, i = (npArgsort (rfft4 x0 x1 x2 x3)).getD 2 0 ∧
      ((List.range 4).filter (fun j =>
        decide ((rfft4 x0 x1 x2 x3).getD i 0 < (rfft4 x0 x1 x2 x3).getD j 0))).length
        = 1 ∧
      computeInterpeak4 x0 x1 x2 x3 sr
        = interpeakOfFreq sr |(fftfreq4 sr).getD i 0| := by
  refine ⟨(npArgsort (rfft4 x0 x1 x2 x3)).getD 2 0, rfl, ?_, rfl⟩
  set fs := rfft4 x0 x1 x2 x3 with hfs
  have hlen4 : fs.length = 4 := by rw [hfs]; rfl
  have hvalne : ∀ u w, u < 4 → w < 4 → u ≠ w → fs.getD u 0 ≠ fs.getD w 0 := by
    have hgen : ∀ u w, u < 4 → w < 4 → u < w → fs.getD u 0 ≠ fs.getD w 0 := by
      intro u w hu hw huw
      have := List.pairwise_iff_get.mp hdist ⟨u, by omega⟩ ⟨w, by omega⟩
        (by exact huw)
      rw [List.getD_eq_getElem _ _ (by omega), List.getD_eq_getElem _ _ (by omega)]
      simpa [List.get_eq_getElem] using this
    intro u w hu hw huw
    rcases Nat.lt_or_ge u w with h | h
    · exact hgen u w hu hw h
    · exact (hgen w u hw hu (by omega)).symm
  have hperm : (npArgsort fs).Perm (List.range fs.length) :=
    List.perm_insertionSort _ _
  have hsorted : List.Sorted (argsortKey fs) (npArgsort fs) :=
    List.sorted_insertionSort _ _
  have hlen : (npArgsort fs).length = 4 := by
    rw [hperm.length_eq, List.length_range, hlen4]
  obtain ⟨a, b, c, dd, hL⟩ : ∃ a b c dd, npArgsort fs = [a, b, c, dd] := by
    rcases hM : npArgsort fs with _ | ⟨a, _ | ⟨b, _ | ⟨c, _ | ⟨dd, _ | ⟨e, tl⟩⟩⟩⟩⟩ <;>
      rw [hM] at hlen <;> simp at hlen
    exact ⟨a, b, c, dd, rfl⟩
  have hperm4 : (List.range 4).Perm [a, b, c, dd] := by
    have := hperm.symm
    rw [hL, hlen4] at this
    exact this
  have hmem : ∀ x ∈ [a, b, c, dd], x < 4 := by
    intro x hx
    have := (hperm4.mem_iff).mpr hx
    exact List.mem_range.mp this
  have hnd : List.Nodup [a, b, c, dd] := hperm4.nodup_iff.mp (List.nodup_range _)
  have hkey : List.Pairwise (argsortKey fs) [a, b, c, dd] := by
    rw [← hL]
    exact hsorted
  have hlt : ∀ u w, u < 4 → w < 4 → u ≠ w → argsortKey fs u w →
      fs.getD u 0 < fs.getD w 0 := by
    intro u w hu hw huw hk
    rcases hk with h | ⟨he, _⟩
    · exact h
    · exact absurd he (hvalne u w hu hw huw)
  have ha4 : a < 4 := hmem a (by simp)
  have hb4 : b < 4 := hmem b (by simp)
  have hc4 : c < 4 := hmem c (by simp)
  have hd4 : dd < 4 := hmem dd (by simp)
  rw [List.pairwise_cons] at hkey
  obtain ⟨hka, hkey2⟩ := hkey
  rw [List.pairwise_cons] at hkey2
  obtain ⟨hkb, hkey3⟩ := hkey2
  rw [List.pairwise_cons] at hkey3
  obtain ⟨hkc, -⟩ := hkey3
  rw [List.nodup_cons] at hnd
  obtain ⟨hna, hnd2⟩ := hnd
  rw [List.nodup_cons] at hnd2
  obtain ⟨hnb, hnd3⟩ := hnd2
  rw [List.nodup_cons] at hnd3
  obtain ⟨hnc, -⟩ := hnd3
  have hnab : a ≠ b := fun h => hna (by simp [h])
  have hnbc : b ≠ c := fun h => hnb (by simp [h])
  have hncd : c ≠ dd := fun h => hnc (by simp [h])
  have hab : fs.getD a 0 < fs.getD b 0 :=
    hlt a b ha4 hb4 hnab (hka b (by simp))
  have hbc : fs.getD b 0 < fs.getD c 0 :=
    hlt b c hb4 hc4 hnbc (hkb c (by simp))
  have hcd : fs.getD c 0 < fs.getD dd 0 :=
    hlt c dd hc4 hd4 hncd (hkc dd (by simp))
  have hgetc : (npArgsort fs).getD 2 0 = c := by rw [hL]; rfl
  rw [hgetc, ← List.countP_eq_length_filter, (hperm4.countP_eq _)]
  simp only [List.countP_cons, List.countP_nil]
  have h1 : ¬ (fs.getD c 0 < fs.getD a 0) := by
    have := hab.trans hbc
    linarith
  have h2 : ¬ (fs.getD c 0 < fs.getD b 0) := by linarith
  have h3 : ¬ (fs.getD c 0 < fs.getD c 0) := lt_irrefl _
  simp only [List.getD_eq_getElem?_getD] at h1 h2 h3 hcd ⊢
  simp [h1, h2, h3, hcd]

/-- Claim C5 witness: the amended selection theorem at the concrete signal
`[2, 1, -1, -4]` (packed rfft coefficients `[-2, 3, -5, 4]`, pairwise
distinct), sample rate 8. -/
theorem claim_C5_witness :
    ∃ i, i = (npArgsort (rfft4 2 1 (-1) (-4))).getD 2 0 ∧
      ((List.range 4).filter (fun j =>
        decide ((rfft4 2 1 (-1) (-4)).getD i 0
          < (rfft4 2 1 (-1) (-4)).getD j 0))).length = 1 ∧
      computeInterpeak4 2 1 (-1) (-4) 8
        = interpeakOfFreq 8 |(fftfreq4 8).getD i 0| :=
  claim_C5_amended_selection 2 1 (-1) (-4) 8 (by norm_num [rfft4])

/-! #### Gait-event index ordering (claim C7) -/

/-- The argmax accumulator returns an index below the running bound. -/
theorem argmaxGo_lt (vs : List ℚ) : ∀ (bi : ℕ) (bv : ℚ) (i : ℕ), bi < i →
    argmaxGo bi bv i vs < i + vs.length := by
  induction vs with
  | nil =>
    intro bi bv i h
    simpa [argmaxGo] using h
  | cons v vs ih =>
    intro bi bv i h
    unfold argmaxGo
    by_cases hc : bv < v
    · rw [if_pos hc]
      have := ih i v (i + 1) (Nat.lt_succ_self i)
      simpa [Nat.add_assoc, Nat.add_comm 1 vs.length] using this
    · rw [if_neg hc]
      have := ih bi bv (i + 1) (by omega)
      simpa [Nat.add_assoc, Nat.add_comm 1 vs.length] using this

/-- `np.argmax` returns an in-range index. -/
theorem npArgmax_lt {l : List ℚ} {k : ℕ} (h : npArgmax l = some k) : k < l.length := by
  cases l with
  | nil => simp [npArgmax] at h
  | cons x xs =>
    have h2 : k = argmaxGo 0 x 1 xs := by
      simpa [npArgmax] using h.symm
    have h3 := argmaxGo_lt xs 0 x 1 (by omega)
    rw [h2]
    simp only [List.length_cons]
    omega

/-- A Python slice with nonnegative endpoints has length at most the endpoint
difference. -/
theorem pySlice_length_le (l : List ℚ) (x y : ℤ) (hx : 0 ≤ x) (hy : 0 ≤ y) :
    (pySlice l x y).length ≤ (y - x).toNat := by
  unfold pySlice pySliceIdx
  rw [if_neg (by omega), if_neg (by omega)]
  simp only [List.length_take, List.length_drop]
  omega

/-- A qualifying coarse peak lies inside its segment, and the peaks from a
strictly increasing transition list are strictly increasing and bounded below
by the first transition. -/
theorem coarseLoop_chain (filtered : List ℚ) (fthr : ℚ) :
    ∀ (ts : List ℕ) (a : ℕ) (res : List ℕ),
      coarseLoop filtered fthr (a :: ts) = some res →
      List.Chain' (· < ·) (a :: ts) →
      List.Chain' (· < ·) res ∧ ∀ x ∈ res, a ≤ x := by
  intro ts
  induction ts with
  | nil =>
    intro a res h _
    have : res = [] := by
      simpa [coarseLoop] using h.symm
    simp [this]
  | cons b rest ih =>
    intro a res h hchain
    have hab : a < b := List.chain'_cons.mp hchain |>.1
    have hchain2 : List.Chain' (· < ·) (b :: rest) :=
      List.chain'_cons.mp hchain |>.2
    rw [coarseLoop] at h
    rcases hsp : segPeak filtered fthr a b with _ | p
    · rw [hsp] at h
      simp at h
    rcases hcl : coarseLoop filtered fthr (b :: rest) with _ | r
    · rw [hsp, hcl] at h
      simp at h
    rw [hsp, hcl] at h
    have hres : res = p ++ r := by
      simpa using h.symm
    obtain ⟨hrchain, hrlb⟩ := ih b r hcl hchain2
    have hp : p = [] ∨ ∃ im, im < b - a ∧ p = [a + im] := by
      unfold segPeak at hsp
      rcases ham : npArgmax (pySlice filtered (a : ℤ) (b : ℤ)) with _ | im
      · rw [ham] at hsp
        simp at hsp
      · have him : im < b - a := by
          have h1 := npArgmax_lt ham
          have h2 := pySlice_length_le filtered (a : ℤ) (b : ℤ)
            (by omega) (by omega)
          omega
        by_cases hq : fthr < filtered.getD (a + im) 0
        · simp only [ham, if_pos hq] at hsp
          exact Or.inr ⟨im, him, by simpa using hsp.symm⟩
        · simp only [ham, if_neg hq] at hsp
          exact Or.inl (by simpa using hsp.symm)
    rcases hp with hp | ⟨im, him, hp⟩
    · rw [hres, hp, List.nil_append]
      exact ⟨hrchain, fun x hx => le_trans hab.le (hrlb x hx)⟩
    · rw [hres, hp]
      constructor
      · rw [List.chain'_append]
        refine ⟨List.chain'_singleton _, hrchain, ?_⟩
        intro x hx y hy
        have hx2 : a + im = x := by simpa using hx
        have hy2 : b ≤ y := hrlb y (List.mem_of_mem_head? hy)
        omega
      · intro x hx
        rcases List.mem_append.mp hx with hx | hx
        · have : x = a + im := by simpa using hx
          omega
        · exact le_trans hab.le (hrlb x hx)

/-- A refined strike index lies within `decel` of its coarse peak, provided
the coarse peak is at least `decel` (so the slice does not wrap). -/
theorem refineStrike_bounds {buf : List ℚ} {d s : ℕ} {i : ℤ} (hds : d ≤ s)
    (h : refineStrike buf d s = some i) :
    (s : ℤ) - d ≤ i ∧ i < (s : ℤ) + d := by
  unfold refineStrike at h
  rcases ham : npArgmax (pySlice buf ((s : ℤ) - d) ((s : ℤ) + d)) with _ | p
  · rw [ham] at h
    simp at h
  · rw [ham] at h
    have hp := npArgmax_lt ham
    have hlen := pySlice_length_le buf ((s : ℤ) - d) ((s : ℤ) + d)
      (by omega) (by omega)
    have hi : i = (p : ℤ) + s - d := by simpa using h.symm
    omega

/-- Refinement of a coarse peak list with gaps of at least `2 * decel`
produces strictly increasing indices. -/
theorem mapM_refine_chain (buf : List ℚ) (d : ℕ) :
    ∀ (smooth : List ℕ) (idxs : List ℤ),
      smooth.mapM (refineStrike buf d) = some idxs →
      (∀ s ∈ smooth, d ≤ s) →
      List.Chain' (fun a b => a + 2 * d ≤ b) smooth →
      List.Chain' (· < ·) idxs := by
  intro smooth
  induction smooth with
  | nil =>
    intro idxs h _ _
    have : idxs = [] := by simpa [List.mapM, List.mapM.loop] using h.symm
    simp [this]
  | cons s rest ih =>
    intro idxs h hlb hgap
    rw [List.mapM_cons] at h
    rcases hi : refineStrike buf d s with _ | i
    · rw [hi] at h
      simp at h
    rcases hrest : rest.mapM (refineStrike buf d) with _ | idxs'
    · rw [hi, hrest] at h
      simp at h
    rw [hi, hrest] at h
    have hidxs : idxs = i :: idxs' := by simpa using h.symm
    have hlb2 : ∀ x ∈ rest, d ≤ x := fun x hx => hlb x (by simp [hx])
    have hgap2 : List.Chain' (fun a b => a + 2 * d ≤ b) rest :=
      (List.chain'_cons'.mp hgap).2
    have hchain' := ih idxs' hrest hlb2 hgap2
    rw [hidxs]
    rcases rest with _ | ⟨s2, rest2⟩
    · have : idxs' = [] := by simpa [List.mapM, List.mapM.loop] using hrest.symm
      simp [this]
    · rcases hi2 : refineStrike buf d s2 with _ | i2
      · rw [List.mapM_cons, hi2] at hrest
        simp at hrest
      · have hidxs' : ∃ tl, idxs' = i2 :: tl := by
          rw [List.mapM_cons, hi2] at hrest
          rcases hrest2 : rest2.mapM (refineStrike buf d) with _ | tl
          · rw [hrest2] at hrest
            simp at hrest
          · rw [hrest2] at hrest
            exact ⟨tl, by simpa using hrest.symm⟩
        obtain ⟨tl, htl⟩ := hidxs'
        rw [htl]
        rw [htl] at hchain'
        apply List.Chain'.cons ?_ hchain'
        have hb1 := refineStrike_bounds (hlb s (by simp)) hi
        have hb2 := refineStrike_bounds (hlb2 s2 (by simp)) hi2
        have hg : s + 2 * d ≤ s2 := (List.chain'_cons.mp hgap).1
        omega

/-- Claim C7 counterexample: on the signal
`[-5, 2, -1, 3, 10, -1, 1, -9]` (identity filter environment, interpeak 4,
threshold 1/10) the two coarse peaks 3 and 4 both refine — inside
overlapping `±decel` windows — to the dominant sample at index 4, so
`heel_strikes` returns the event-index list `[4, 4]`, which is NOT strictly
increasing. -/
theorem claim_C7_counterexample :
    heelStrikes (constEnv 4) [-5, 2, -1, 3, 10, -1, 1, -9] 1 (1/10)
        = some ([0, 0], [4, 4]) ∧
      ¬ List.Chain' (· < ·) ([4, 4] : List ℤ) := by
  constructor
  · simp [heelStrikes, heelStrikesRun, coarsePeaks, coarseLoop, segPeak, npMax,
      npArgmax, argmaxGo, pySlice, pySliceIdx, crossingsNonzeroPos2neg, demean,
      npMean, refineStrike, pyIdx, pyWrap, constEnv, List.range_succ]
    norm_num [coarseLoop, segPeak, pySlice, pySliceIdx, npArgmax, argmaxGo,
      refineStrike, pyIdx, pyWrap, List.mapM.loop, Int.toNat]
  · intro h
    have := (List.chain'_cons.mp h).1
    omega

/-- Claim C7 (amended): the COARSE peak indices of `heel_strikes` are always
strictly increasing, and the returned refined event indices are strictly
increasing provided every coarse peak is at least `decel` and consecutive
coarse peaks are at least `2 * decel` apart (`decel = interpeak // 2`);
without that spacing the refinement windows overlap and indices can repeat. -/
theorem claim_C7_amended_ordering (env : SigEnv) (data : List ℚ)
    (sr thr : ℚ) (smooth : List ℕ) (strikes : List ℚ) (idxs : List ℤ) :
    (coarsePeaks (env.lowpass (demean data)) thr = some smooth →
      List.Chain' (· < ·) smooth) ∧
    (coarsePeaks (env.lowpass (demean data)) thr = some smooth →
      heelStrikes env data sr thr = some (strikes, idxs) →
      (∀ s ∈ smooth, env.interpeak (demean data) / 2 ≤ s) →
      List.Chain' (fun a b => a + 2 * (env.interpeak (demean data) / 2) ≤ b) smooth →
      List.Chain' (· < ·) idxs) := by
  have hcross : List.Chain' (· < ·)
      (crossingsNonzeroPos2neg (env.lowpass (demean data))) := by
    rw [List.chain'_iff_pairwise]
    exact (List.pairwise_lt_range _).filter _
  have hsmooth : coarsePeaks (env.lowpass (demean data)) thr = some smooth →
      List.Chain' (· < ·) smooth := by
    intro hc
    unfold coarsePeaks at hc
    rcases hm : npMax (env.lowpass (demean data)) with _ | m
    · rw [hm] at hc
      simp at hc
    · rw [hm] at hc
      simp only [Option.bind_eq_bind, Option.some_bind] at hc
      rcases hts : crossingsNonzeroPos2neg (env.lowpass (demean data)) with _ | ⟨a, ts⟩
      · rw [hts] at hc
        have : smooth = [] := by simpa [coarseLoop] using hc.symm
        simp [this]
      · rw [hts] at hc
        rw [hts] at hcross
        exact (coarseLoop_chain _ _ ts a smooth hc hcross).1
  refine ⟨hsmooth, fun hc hh hlb hgap => ?_⟩
  unfold heelStrikes heelStrikesRun at hh
  simp only [hc, Option.bind_eq_bind, Option.some_bind] at hh
  rcases hm : smooth.mapM (refineStrike (demean data)
      (env.interpeak (demean data) / 2)) with _ | idxs'
  · rw [hm] at hh
    simp at hh
  · rw [hm] at hh
    simp only [Option.some_bind] at hh
    rcases hhd : idxs'.head? with _ | first
    · rw [hhd] at hh
      simp at hh
    · rw [hhd] at hh
      have h2 : idxs' = idxs := by
        simpa using congrArg (Option.map Prod.snd) hh
      rw [← h2]
      exact mapM_refine_chain _ _ smooth idxs' hm hlb hgap

/-- Claim C7 witness: on `[0, 0, 2, -1, 0, 0, 0, 6, -1, 1, -7]` with
interpeak 4 (`decel = 2`) the coarse peaks `[2, 7]` are `≥ decel` and
`2*decel` apart, and the returned indices `[2, 7]` are strictly
increasing. -/
theorem claim_C7_witness :
    List.Chain' (· < ·) ([2, 7] : List ℕ) ∧ List.Chain' (· < ·) ([2, 7] : List ℤ) := by
  have h := claim_C7_amended_ordering (constEnv 4)
    [0, 0, 2, -1, 0, 0, 0, 6, -1, 1, -7] 1 (1/10) [2, 7] [0, 5] [2, 7]
  have hc : coarsePeaks ((constEnv 4).lowpass
      (demean [0, 0, 2, -1, 0, 0, 0, 6, -1, 1, -7])) (1/10) = some [2, 7] := by
    simp [coarsePeaks, coarseLoop, segPeak, npMax, npArgmax, argmaxGo, pySlice,
      pySliceIdx, crossingsNonzeroPos2neg, demean, npMean, pyIdx, pyWrap,
      constEnv, List.range_succ]
    norm_num [coarseLoop, segPeak, pySlice, pySliceIdx, npArgmax, argmaxGo,
      pyIdx, pyWrap, Int.toNat, abs_of_pos, Option.some_bind]
  have hh : heelStrikes (constEnv 4) [0, 0, 2, -1, 0, 0, 0, 6, -1, 1, -7] 1 (1/10)
      = some ([0, 5], [2, 7]) := by
    simp [heelStrikes, heelStrikesRun, coarsePeaks, coarseLoop, segPeak, npMax,
      npArgmax, argmaxGo, pySlice, pySliceIdx, crossingsNonzeroPos2neg, demean,
      npMean, refineStrike, pyIdx, pyWrap, constEnv, List.range_succ]
    norm_num [coarseLoop, segPeak, pySlice, pySliceIdx, npArgmax, argmaxGo,
      refineStrike, pyIdx, pyWrap, List.mapM.loop, Int.toNat, abs_of_pos,
      Option.some_bind]
  exact ⟨h.1 hc, h.2 hc hh (by decide)
    (by norm_num [constEnv, List.chain'_cons, List.chain'_singleton])⟩

/-! #### Walk-direction normalization (claim C6) -/

set_option maxHeartbeats 2000000 in
/-- Claim C6 counterexample: on the three identical axis signals
`[0, 0, 0, 2, 0, 3, 1, 2, 0, 0]` (identity filter, interpeak 8,
sample rate 1, stride fraction 1/8, threshold 1/10) one gait event is
detected (index 5), yet the single deceleration-phase sample is the zero
vector, so `walk_direction_preheel` computes `direction = (0, 0, 0)` and the
final normalization divides by `sqrt(0)`: the returned vector is NaN, not a
unit vector — refuting "returns a vector of Euclidean norm 1 whenever at
least one gait event is detected". -/
theorem claim_C6_counterexample :
    (heelStrikes (constEnv 8)
        (absSum3 [0, 0, 0, 2, 0, 3, 1, 2, 0, 0] [0, 0, 0, 2, 0, 3, 1, 2, 0, 0]
          [0, 0, 0, 2, 0, 3, 1, 2, 0, 0]) 1 (1/10)).map (fun pr => pr.2)
        = some [(5 : ℤ)] ∧
      walkDirectionPreheelRaw (constEnv 8) [0, 0, 0, 2, 0, 3, 1, 2, 0, 0]
        [0, 0, 0, 2, 0, 3, 1, 2, 0, 0] [0, 0, 0, 2, 0, 3, 1, 2, 0, 0] 1 (1/8) (1/10)
        = some (0, 0, 0) ∧
      ¬ (((0 : ℝ) / Real.sqrt ((sumSq3 (0, 0, 0) : ℚ) : ℝ)) ^ 2
          + ((0 : ℝ) / Real.sqrt ((sumSq3 (0, 0, 0) : ℚ) : ℝ)) ^ 2
          + ((0 : ℝ) / Real.sqrt ((sumSq3 (0, 0, 0) : ℚ) : ℝ)) ^ 2 = 1) := by
  refine ⟨?_, ?_, ?_⟩
  · simp [heelStrikes, heelStrikesRun, coarsePeaks, coarseLoop, segPeak, npMax,
      npArgmax, argmaxGo, pySlice, pySliceIdx, crossingsNonzeroPos2neg, demean,
      npMean, refineStrike, pyIdx, pyWrap, constEnv, absSum3, List.range_succ]
    norm_num [coarseLoop, segPeak, pySlice, pySliceIdx, npArgmax, argmaxGo,
      refineStrike, pyIdx, pyWrap, List.mapM.loop, Int.toNat, abs_of_pos,
      Option.some_bind]
  · simp [walkDirectionPreheelRaw, heelStrikes, heelStrikesRun, coarsePeaks,
      coarseLoop, segPeak, npMax, npArgmax, argmaxGo, pySlice, pySliceIdx,
      crossingsNonzeroPos2neg, demean, npMean, refineStrike, pyIdx, pyWrap,
      constEnv, absSum3, intRange, decelVector, meanV3, pyRound,
      List.range_succ]
    norm_num [coarseLoop, segPeak, pySlice, pySliceIdx, npArgmax, argmaxGo,
      refineStrike, pyIdx, pyWrap, List.mapM.loop, Int.toNat, abs_of_pos,
      Option.some_bind, intRange, decelVector, meanV3, pyRound,
      Int.floor_eq_iff, List.range_succ]
  · norm_num [sumSq3, Real.sqrt_zero]

/-- Claim C6 (amended): `walk_direction_preheel` raises (IndexError) rather
than returning when `heel_strikes` finds no events, and the returned vector
is a unit vector only when the average deceleration vector is nonzero: in
that case normalizing by `sqrt(direction.dot(direction))` yields squared
Euclidean norm 1; when the average deceleration vector is zero the division
produces NaN components instead. -/
theorem claim_C6_amended_unit_norm (env : SigEnv) (ax ay az : List ℚ)
    (sr sf thr : ℚ) :
    (∀ w : ℚ × ℚ × ℚ,
      walkDirectionPreheelRaw env ax ay az sr sf thr = some w →
      w ≠ (0, 0, 0) →
      ((w.1 : ℝ) / Real.sqrt ((sumSq3 w : ℚ) : ℝ)) ^ 2
        + ((w.2.1 : ℝ) / Real.sqrt ((sumSq3 w : ℚ) : ℝ)) ^ 2
        + ((w.2.2 : ℝ) / Real.sqrt ((sumSq3 w : ℚ) : ℝ)) ^ 2 = 1) ∧
    (heelStrikes env (absSum3 ax ay az) sr thr = none →
      walkDirectionPreheelRaw env ax ay az sr sf thr = none) := by
  constructor
  · rintro ⟨a, b, c⟩ - hne
    have hnn : (0 : ℚ) ≤ a ^ 2 + b ^ 2 + c ^ 2 := by positivity
    have hS : (0 : ℚ) < a ^ 2 + b ^ 2 + c ^ 2 := by
      rcases hnn.lt_or_eq with h | h
      · exact h
      · exfalso
        apply hne
        have ha : a = 0 := by nlinarith [sq_nonneg a, sq_nonneg b, sq_nonneg c]
        have hb : b = 0 := by nlinarith [sq_nonneg a, sq_nonneg b, sq_nonneg c]
        have hc : c = 0 := by nlinarith [sq_nonneg a, sq_nonneg b, sq_nonneg c]
        simp [ha, hb, hc]
    have hSR : (0 : ℝ) < (a : ℝ) ^ 2 + (b : ℝ) ^ 2 + (c : ℝ) ^ 2 := by
      exact_mod_cast hS
    have hsum : ((sumSq3 (a, b, c) : ℚ) : ℝ)
        = (a : ℝ) ^ 2 + (b : ℝ) ^ 2 + (c : ℝ) ^ 2 := by
      simp only [sumSq3]
      push_cast
      ring
    have hsq : Real.sqrt ((sumSq3 (a, b, c) : ℚ) : ℝ) ^ 2
        = (a : ℝ) ^ 2 + (b : ℝ) ^ 2 + (c : ℝ) ^ 2 := by
      rw [Real.sq_sqrt (by rw [hsum]; exact hSR.le), hsum]
    show ((a : ℝ) / Real.sqrt ((sumSq3 (a, b, c) : ℚ) : ℝ)) ^ 2
        + ((b : ℝ) / Real.sqrt ((sumSq3 (a, b, c) : ℚ) : ℝ)) ^ 2
        + ((c : ℝ) / Real.sqrt ((sumSq3 (a, b, c) : ℚ) : ℝ)) ^ 2 = 1
    have hstep : ((a : ℝ) / Real.sqrt ((sumSq3 (a, b, c) : ℚ) : ℝ)) ^ 2
        + ((b : ℝ) / Real.sqrt ((sumSq3 (a, b, c) : ℚ) : ℝ)) ^ 2
        + ((c : ℝ) / Real.sqrt ((sumSq3 (a, b, c) : ℚ) : ℝ)) ^ 2
        = ((a : ℝ) ^ 2 + (b : ℝ) ^ 2 + (c : ℝ) ^ 2)
            / Real.sqrt ((sumSq3 (a, b, c) : ℚ) : ℝ) ^ 2 := by
      ring
    rw [hstep, hsq, div_self (ne_of_gt hSR)]
  · intro h
    simp [walkDirectionPreheelRaw, h]

set_option maxHeartbeats 2000000 in
/-- Claim C6 witness: on three identical axis signals with a nonzero
deceleration phase the raw direction is `(-1, -1, -1)`, whose normalization
has squared norm 1; and on a constant signal `heel_strikes` fails, hence so
does `walk_direction_preheel`. -/
theorem claim_C6_witness :
    walkDirectionPreheelRaw (constEnv 16)
        [0, 0, 0, 0, 0, 0, 2, 0, 3, 1, 2, 0, 0, 0, 0, 0]
        [0, 0, 0, 0, 0, 0, 2, 0, 3, 1, 2, 0, 0, 0, 0, 0]
        [0, 0, 0, 0, 0, 0, 2, 0, 3, 1, 2, 0, 0, 0, 0, 0] 1 (1/8) (1/10)
        = some (-1, -1, -1) ∧
      (((-1 : ℚ) : ℝ) / Real.sqrt ((sumSq3 (-1, -1, -1) : ℚ) : ℝ)) ^ 2
        + (((-1 : ℚ) : ℝ) / Real.sqrt ((sumSq3 (-1, -1, -1) : ℚ) : ℝ)) ^ 2
        + (((-1 : ℚ) : ℝ) / Real.sqrt ((sumSq3 (-1, -1, -1) : ℚ) : ℝ)) ^ 2 = 1 ∧
      walkDirectionPreheelRaw (constEnv 3) [1, 1, 1, 1] [1, 1, 1, 1] [1, 1, 1, 1]
        1 (1/8) (1/10) = none := by
  have heval : walkDirectionPreheelRaw (constEnv 16)
      [0, 0, 0, 0, 0, 0, 2, 0, 3, 1, 2, 0, 0, 0, 0, 0]
      [0, 0, 0, 0, 0, 0, 2, 0, 3, 1, 2, 0, 0, 0, 0, 0]
      [0, 0, 0, 0, 0, 0, 2, 0, 3, 1, 2, 0, 0, 0, 0, 0] 1 (1/8) (1/10)
      = some (-1, -1, -1) := by
    simp [walkDirectionPreheelRaw, heelStrikes, heelStrikesRun, coarsePeaks,
      coarseLoop, segPeak, npMax, npArgmax, argmaxGo, pySlice, pySliceIdx,
      crossingsNonzeroPos2neg, demean, npMean, refineStrike, pyIdx, pyWrap,
      constEnv, absSum3, intRange, decelVector, meanV3, pyRound,
      List.range_succ]
    norm_num [coarseLoop, segPeak, pySlice, pySliceIdx, npArgmax, argmaxGo,
      refineStrike, pyIdx, pyWrap, List.mapM.loop, Int.toNat, abs_of_pos,
      Option.some_bind, intRange, decelVector, meanV3, pyRound,
      Int.floor_eq_iff, List.range_succ]
    simp
  have hnone : heelStrikes (constEnv 3)
      (absSum3 [1, 1, 1, 1] [1, 1, 1, 1] [1, 1, 1, 1]) 1 (1/10) = none := by
    simp [heelStrikes, heelStrikesRun, coarsePeaks, coarseLoop, segPeak, npMax,
      npArgmax, argmaxGo, pySlice, pySliceIdx, crossingsNonzeroPos2neg, demean,
      npMean, refineStrike, pyIdx, pyWrap, constEnv, absSum3, List.range_succ]
    simp [List.mapM.loop]
  exact ⟨heval,
    (claim_C6_amended_unit_norm (constEnv 16)
        [0, 0, 0, 0, 0, 0, 2, 0, 3, 1, 2, 0, 0, 0, 0, 0]
        [0, 0, 0, 0, 0, 0, 2, 0, 3, 1, 2, 0, 0, 0, 0, 0]
        [0, 0, 0, 0, 0, 0, 2, 0, 3, 1, 2, 0, 0, 0, 0, 0] 1 (1/8) (1/10)).1
      (-1, -1, -1) heval (by norm_num),
    (claim_C6_amended_unit_norm (constEnv 3) [1, 1, 1, 1] [1, 1, 1, 1]
        [1, 1, 1, 1] 1 (1/8) (1/10)).2 hnone⟩

end Mhealthx
